import Mathlib

/-!
# ACL reconciliation core, shallowly embedded from `client/internal/acl/manager.go`

This file embeds the data model and operations of the netbird ACL manager
(`DefaultManager`): the rule squasher `squashAcceptRules`, the rule
translator `protoRuleToFirewallRule` with its helpers `addInRules`,
`addOutRules`, `shouldSkipInvertedRule`, `convertToFirewallProtocol`,
`convertFirewallAction`, the identity functions `getRuleID` and
`getRuleGroupingSelector`, and the reconciliation entry point
`ApplyFiltering` with `rollBack` and the stale-rule removal step.

Go maps are embedded as association lists with replace-on-insert semantics
(lookups and membership agree with Go maps; iteration order is fixed to
insertion order, a deterministic stand-in for Go's unspecified order).
The firewall backend (`client/firewall/manager`, not part of the sources
here) is treated as the opaque capability the spec describes: an oracle
deciding success of each `AddFiltering` call, with the interpreter minting
fresh handles and recording every backend call in an event trace.
-/

namespace Acl

/-- Association list lookup, mirroring Go map indexing `m[k]` (comma-ok form). -/
def alookup [DecidableEq κ] : List (κ × α) → κ → Option α
  | [], _ => none
  | (k', v) :: rest, k => if k' = k then some v else alookup rest k

/-- Association list insert, mirroring Go map assignment `m[k] = v`:
replaces the value in place if the key is present, otherwise appends. -/
def ainsert [DecidableEq κ] : List (κ × α) → κ → α → List (κ × α)
  | [], k, v => [(k, v)]
  | (k', v') :: rest, k, v =>
    if k' = k then (k, v) :: rest else (k', v') :: ainsert rest k v

/-- Go map indexing with the zero value for a missing key (`m[k]` outside
the comma-ok form yields `0` for an `int`-valued map). -/
def alookupD [DecidableEq κ] (m : List (κ × Nat)) (k : κ) : Nat :=
  (alookup m k).getD 0

/-- Decimal digit character, used by the embedded `strconv.Itoa`. -/
def digitChar (n : Nat) : Char := Char.ofNat (48 + n)

/-- Decimal digits, fuel-based so that the kernel can evaluate it (the
fuel is enough whenever `n < fuel`). -/
def natDigitsCore (fuel n : Nat) : List Char :=
  match fuel with
  | 0 => []
  | fuel + 1 =>
    if n < 10 then [digitChar n]
    else natDigitsCore fuel (n / 10) ++ [digitChar (n % 10)]

/-- Decimal digits of a natural number, most significant first
(the digits `strconv.Itoa` and `fmt` print). -/
def natDigits (n : Nat) : List Char := natDigitsCore (n + 1) n

/-- Embedded `strconv.Itoa` for non-negative values. -/
def natRepr (n : Nat) : String := String.mk (natDigits n)

/-- Embedded `strconv.Itoa` over Go `int` values (sign then digits). -/
def intRepr (i : Int) : String :=
  if i < 0 then String.mk ('-' :: natDigits i.natAbs) else natRepr i.natAbs

/-- Numeric value of a list of decimal digit characters. -/
def digitsToNat (l : List Char) : Nat :=
  l.foldl (fun n c => n * 10 + (c.toNat - 48)) 0

/-- An IPv4 address as parsed by `net.ParseIP` (four octets). -/
structure IPv4 where
  o1 : Nat
  o2 : Nat
  o3 : Nat
  o4 : Nat
deriving DecidableEq, Repr

/-- `net.IP.String` for an IPv4 address: the dotted-quad text. -/
def ipString (ip : IPv4) : String :=
  natRepr ip.o1 ++ "." ++ natRepr ip.o2 ++ "." ++ natRepr ip.o3 ++ "." ++ natRepr ip.o4

/-- Split a character list at every `'.'` (helper for the IPv4 parser). -/
def splitDots : List Char → List (List Char)
  | [] => [[]]
  | c :: rest =>
    let r := splitDots rest
    if c = '.' then [] :: r
    else match r with
      | [] => [[c]]
      | g :: gs => (c :: g) :: gs

/-- One dotted-quad field as `net.ParseIP` accepts it: one to three decimal
digits, no leading zero (Go rejects leading zeros in IPv4 fields), value
at most 255. -/
def parseIPv4Field (l : List Char) : Option Nat :=
  if l.length = 0 ∨ 3 < l.length then none
  else if ¬ l.all (fun c => c.isDigit) then none
  else if 1 < l.length ∧ l.head? = some '0' then none
  else
    let v := digitsToNat l
    if v ≤ 255 then some v else none

/-- Modelled from the spec: `net.ParseIP` (standard library, not under the
sources). The spec says peer IP parsing "uses standard textual IP
notation; failure yields `InvalidPeerIP`". We model the IPv4 dotted-quad
form; texts that are not four valid dotted fields (including IPv6 texts)
yield `none`. -/
def parseIP (s : String) : Option IPv4 :=
  match splitDots s.data with
  | [a, b, c, d] =>
    match parseIPv4Field a, parseIPv4Field b, parseIPv4Field c, parseIPv4Field d with
    | some x, some y, some z, some t => some ⟨x, y, z, t⟩
    | _, _, _, _ => none
  | _ => none

/-- Modelled from the spec: `strconv.Atoi` (standard library, not under the
sources): an optional sign followed by at least one decimal digit. -/
def atoi (s : String) : Option Int :=
  let digitsVal : List Char → Option Nat := fun l =>
    if l.length = 0 ∨ ¬ l.all (fun c => c.isDigit) then none else some (digitsToNat l)
  match s.data with
  | '+' :: rest => (digitsVal rest).map Int.ofNat
  | '-' :: rest => (digitsVal rest).map (fun n => -(n : Int))
  | l => (digitsVal l).map Int.ofNat

/-- UTF-8 encoding of one code point (the bytes `[]byte(string)` holds). -/
def utf8EncodeCharNat (c : Nat) : List Nat :=
  if c < 128 then [c]
  else if c < 2048 then [192 + c / 64, 128 + c % 64]
  else if c < 65536 then [224 + c / 4096, 128 + c / 64 % 64, 128 + c % 64]
  else [240 + c / 262144, 128 + c / 4096 % 64, 128 + c / 64 % 64, 128 + c % 64]

/-- The UTF-8 bytes of a string, as naturals: the Go conversion `[]byte(s)`. -/
def utf8Bytes (s : String) : List Nat :=
  s.data.flatMap (fun ch => utf8EncodeCharNat ch.toNat)

/-- Lowercase hexadecimal digit, as `encoding/hex` prints. -/
def hexDigitChar (n : Nat) : Char :=
  if n < 10 then Char.ofNat (48 + n) else Char.ofNat (87 + n)

/-- `hex.EncodeToString`: two lowercase hex digits per byte. -/
def hexChars (bytes : List Nat) : List Char :=
  bytes.flatMap (fun b => [hexDigitChar (b / 16), hexDigitChar (b % 16)])

/-- `hex.EncodeToString` producing a string. -/
def hexString (bytes : List Nat) : String := String.mk (hexChars bytes)

/-- Modelled from the spec: the 16 bytes of the MD5 digest of empty input
(`crypto/md5` is standard library, not under the sources; the spec notes
the reference "uses an MD5 digest produced by hashing the empty state",
whose value is the fixed RFC 1321 digest of the empty message). -/
def md5EmptyDigest : List Nat :=
  [212, 29, 140, 217, 143, 0, 178, 4, 233, 128, 9, 152, 236, 248, 66, 126]

/-- Modelled from the spec: Go `md5.New().Sum(data)` appends the digest of
the (empty) hash state to `data` and returns the result. -/
def md5NewSum (data : List Nat) : List Nat := data ++ md5EmptyDigest

/-- `mgmProto.FirewallRuleProtocol`. `UNKNOWN` stands for any value outside
the four named protocols (the proto enum is open in Go); it exercises the
`InvalidProtocol` default branch of `convertToFirewallProtocol`. -/
inductive PProtocol
  | UNKNOWN
  | ALL
  | TCP
  | UDP
  | ICMP
deriving DecidableEq, Repr

/-- `mgmProto.FirewallRuleDirection`. `INVALID` stands for any numeric value
other than `IN`(0) and `OUT`(1); it exercises the `InvalidDirection`
default branch of `protoRuleToFirewallRule`. -/
inductive PDirection
  | IN
  | OUT
  | INVALID
deriving DecidableEq, Repr

/-- `mgmProto.FirewallRuleAction`. `INVALIDA` stands for any numeric value
other than `ACCEPT`(0) and `DROP`(1); it exercises the `InvalidAction`
default branch of `convertFirewallAction`. -/
inductive PAction
  | ACCEPT
  | DROP
  | INVALIDA
deriving DecidableEq, Repr

/-- `int(r.Direction)`: the wire values of the direction enum. -/
def dirInt : PDirection → Nat
  | .IN => 0
  | .OUT => 1
  | .INVALID => 2

/-- The text `%v` prints for an action enum value (protobuf `String()`,
falling back to the number for an unnamed value). -/
def actionEnumStr : PAction → String
  | .ACCEPT => "ACCEPT"
  | .DROP => "DROP"
  | .INVALIDA => "2"

/-- The text `%v` prints for a protocol enum value. -/
def protoEnumStr : PProtocol → String
  | .UNKNOWN => "UNKNOWN"
  | .ALL => "ALL"
  | .TCP => "TCP"
  | .UDP => "UDP"
  | .ICMP => "ICMP"

/-- `mgmProto.FirewallRule`. -/
structure FirewallRule where
  PeerIP : String
  Direction : PDirection
  Action : PAction
  Protocol : PProtocol
  Port : String
deriving DecidableEq, Repr

/-- A peer of the network map; only `AllowedIps` is consumed by the ACL core. -/
structure Peer where
  AllowedIps : List String
deriving DecidableEq, Repr

/-- `mgmProto.SSHConfig`. -/
structure SshConfigMsg where
  SshEnabled : Bool
deriving DecidableEq, Repr

/-- `mgmProto.PeerConfig`; `none` models a nil `SshConfig` pointer. -/
structure PeerConfigMsg where
  sshConfig : Option SshConfigMsg
deriving DecidableEq, Repr

/-- `mgmProto.NetworkMap`, restricted to the fields the ACL core reads;
`none` models a nil `PeerConfig` pointer. -/
structure NetworkMap where
  FirewallRules : List FirewallRule
  FirewallRulesIsEmpty : Bool
  RemotePeers : List Peer
  OfflinePeers : List Peer
  peerConfig : Option PeerConfigMsg
deriving DecidableEq, Repr

/-- Modelled from the spec: the `firewall.Protocol` string constants of
`client/firewall/manager` (not under the sources). -/
def ProtocolTCP : String := "tcp"

/-- Modelled from the spec: `firewall.ProtocolUDP`. -/
def ProtocolUDP : String := "udp"

/-- Modelled from the spec: `firewall.ProtocolICMP`. -/
def ProtocolICMP : String := "icmp"

/-- Modelled from the spec: `firewall.ProtocolALL`. -/
def ProtocolALL : String := "all"

/-- Modelled from the spec: `firewall.ActionAccept` (an `int`-valued enum). -/
def ActionAccept : Nat := 0

/-- Modelled from the spec: `firewall.ActionDrop`. -/
def ActionDrop : Nat := 1

/-- Modelled from the spec: `firewall.RuleDirection` of the backend call. -/
inductive FDirection
  | IN
  | OUT
deriving DecidableEq, Repr

/-- Modelled from the spec: `firewall.Port` carries a list of port values;
`Port.String` joins them with commas (the "port textual representation"). -/
def portString (values : List Int) : String :=
  String.intercalate "," (values.map intRepr)

/-- `convertToFirewallProtocol`: management protocol to backend protocol;
unknown protocols fail. -/
def convertToFirewallProtocol : PProtocol → Except String String
  | .TCP => .ok ProtocolTCP
  | .UDP => .ok ProtocolUDP
  | .ICMP => .ok ProtocolICMP
  | .ALL => .ok ProtocolALL
  | .UNKNOWN => .error "invalid protocol type"

/-- `convertFirewallAction`: management action to backend action;
anything but ACCEPT/DROP fails. -/
def convertFirewallAction : PAction → Except String Nat
  | .ACCEPT => .ok ActionAccept
  | .DROP => .ok ActionDrop
  | .INVALIDA => .error "invalid action type"

/-- `shouldSkipInvertedRule`: no return-path companion for ALL, ICMP or a
port-less rule. -/
def shouldSkipInvertedRule (protocol : String) (port : Option (List Int)) : Bool :=
  protocol = ProtocolALL || protocol = ProtocolICMP || port.isNone

/-- `getRuleID` of the identifier bytes alone: hex of
`md5.New().Sum(idStr)`. -/
def getRuleIDStr (idStr : String) : String :=
  hexString (md5NewSum (utf8Bytes idStr))

/-- `getRuleID`: the identifier string is the peer IP text, backend
protocol, direction, action, comment and, if present, port text; the ID is
the hex of `md5.New().Sum` of its bytes. -/
def getRuleID (ip : IPv4) (proto : String) (direction : Nat) (port : Option (List Int))
    (action : Nat) (comment : String) : String :=
  let idStr := ipString ip ++ proto ++ natRepr direction ++ natRepr action ++ comment
  let idStr := match port with
    | some p => idStr ++ portString p
    | none => idStr
  getRuleIDStr idStr

/-- `getRuleGroupingSelector`: every rule property except the IP address,
rendered as `fmt.Sprintf("%v:%v:%v:%s", strconv.Itoa(int(direction)),
action, protocol, port)`. -/
def getRuleGroupingSelector (rule : FirewallRule) : String :=
  natRepr (dirInt rule.Direction) ++ ":" ++ actionEnumStr rule.Action ++ ":" ++
    protoEnumStr rule.Protocol ++ ":" ++ rule.Port

/-- Zero padding of `fmt.Sprintf("%07d", ·)`: pad with zeros to width at
least seven. -/
def padName (s : List Char) : List Char :=
  List.replicate (7 - s.length) '0' ++ s

/-- The IP-set name minted for counter value `n`: `fmt.Sprintf("nb%07d", n)`. -/
def ipsetNameOf (n : Nat) : String :=
  String.mk ('n' :: 'b' :: padName (natDigits n))

/-- The `protoMatch` type of `squashAcceptRules`:
`map[mgmProto.FirewallRuleProtocol]map[string]int`. -/
abbrev ProtoMatch := List (PProtocol × List (String × Nat))

/-- Record a protocol as squashed (`squashedProtocols[p] = struct{}{}`). -/
def addSquashedProtocol (sq : List PProtocol) (p : PProtocol) : List PProtocol :=
  if p ∈ sq then sq else sq ++ [p]

/-- State threaded through the squashing pass: the two direction maps and
the squashed rules/protocols the closure `addRuleToCalculationMap`
accumulates by reference. -/
structure SquashCtx where
  inM : ProtoMatch
  outM : ProtoMatch
  squashedRules : List FirewallRule
  squashedProtocols : List PProtocol
deriving Repr

/-- The closure `addRuleToCalculationMap` of `squashAcceptRules`, acting on
one direction map `protocols`: zero the protocol entry on a DROP action or
a non-empty port; emit an input `0.0.0.0` wildcard directly to the squashed
set; otherwise record `(peerIP, index)` if the peer IP is new. -/
def addRuleToCalculationMap (i : Nat) (r : FirewallRule) (protocols : ProtoMatch)
    (sqRules : List FirewallRule) (sqProtocols : List PProtocol) :
    ProtoMatch × List FirewallRule × List PProtocol :=
  if r.Action = PAction.DROP ∨ r.Port ≠ "" then
    (ainsert protocols r.Protocol [], sqRules, sqProtocols)
  else
    let protocols := if (alookup protocols r.Protocol).isNone
      then ainsert protocols r.Protocol [] else protocols
    if r.PeerIP = "0.0.0.0" then
      (protocols, sqRules ++ [r], addSquashedProtocol sqProtocols r.Protocol)
    else
      let ipset := (alookup protocols r.Protocol).getD []
      if (alookup ipset r.PeerIP).isSome then (protocols, sqRules, sqProtocols)
      else (ainsert protocols r.Protocol (ainsert ipset r.PeerIP i), sqRules, sqProtocols)

/-- The first loop of `squashAcceptRules`: feed every input rule, with its
index, into the calculation map of its direction (`IN` rules into `in`,
everything else into `out`). -/
def calcRules (i : Nat) (rules : List FirewallRule) (ctx : SquashCtx) : SquashCtx :=
  match rules with
  | [] => ctx
  | r :: rest =>
    let ctx :=
      if r.Direction = PDirection.IN then
        let (m, sr, sp) := addRuleToCalculationMap i r ctx.inM ctx.squashedRules ctx.squashedProtocols
        { ctx with inM := m, squashedRules := sr, squashedProtocols := sp }
      else
        let (m, sr, sp) := addRuleToCalculationMap i r ctx.outM ctx.squashedRules ctx.squashedProtocols
        { ctx with outM := m, squashedRules := sr, squashedProtocols := sp }
    calcRules (i + 1) rest ctx

/-- The protocol order of the squashing pass; `ALL` must come first. -/
def protocolOrders : List PProtocol :=
  [PProtocol.ALL, PProtocol.ICMP, PProtocol.TCP, PProtocol.UDP]

/-- The `squash` closure of `squashAcceptRules` for one direction: emit a
synthetic `0.0.0.0` ACCEPT rule for each protocol whose recorded peer set
covers all `totalIPs` peers (and at least two); stop after `ALL`. -/
def squashLoop (totalIPs : Nat) (dirMatch : ProtoMatch) (direction : PDirection) :
    List PProtocol → List FirewallRule × List PProtocol → List FirewallRule × List PProtocol
  | [], acc => acc
  | p :: rest, (sqRules, sqProtocols) =>
    match alookup dirMatch p with
    | none => squashLoop totalIPs dirMatch direction rest (sqRules, sqProtocols)
    | some ipset =>
      if ipset.length ≠ totalIPs ∨ ipset.length < 2 then
        squashLoop totalIPs dirMatch direction rest (sqRules, sqProtocols)
      else
        let sqRules := sqRules ++
          [{ PeerIP := "0.0.0.0", Direction := direction, Action := PAction.ACCEPT,
             Protocol := p, Port := "" }]
        let sqProtocols := addSquashedProtocol sqProtocols p
        if p = PProtocol.ALL then (sqRules, sqProtocols)
        else squashLoop totalIPs dirMatch direction rest (sqRules, sqProtocols)

/-- `totalIPs`: the number of allowed-IP entries over remote and offline
peers. -/
def totalIPsOf (nm : NetworkMap) : Nat :=
  ((nm.RemotePeers ++ nm.OfflinePeers).map (fun p => p.AllowedIps.length)).sum

/-- The calculation maps and squashed accumulators of one squashing pass:
the state after both direction loops have run. -/
def squashParts (nm : NetworkMap) : SquashCtx :=
  let ctx := calcRules 0 nm.FirewallRules ⟨[], [], [], []⟩
  let (sqRules, sqProtocols) := squashLoop (totalIPsOf nm) ctx.inM PDirection.IN
    protocolOrders (ctx.squashedRules, ctx.squashedProtocols)
  let (sqRules, sqProtocols) := squashLoop (totalIPsOf nm) ctx.outM PDirection.OUT
    protocolOrders (sqRules, sqProtocols)
  { ctx with squashedRules := sqRules, squashedProtocols := sqProtocols }

/-- The final filter of `squashAcceptRules`: drop an input rule when its
protocol is squashed and its `(peerIP, index)` is the canonical entry of
the `in` map, or failing that of the `out` map (a missing peer IP reads as
index `0`, the Go zero value). -/
def filterSquashedGo (inM outM : ProtoMatch) (sqProtocols : List PProtocol) :
    Nat → List FirewallRule → List FirewallRule
  | _, [] => []
  | i, r :: rest =>
    let keep := filterSquashedGo inM outM sqProtocols (i + 1) rest
    if r.Protocol ∈ sqProtocols then
      match alookup inM r.Protocol with
      | some m =>
        if alookupD m r.PeerIP = i then keep
        else
          match alookup outM r.Protocol with
          | some m2 => if alookupD m2 r.PeerIP = i then keep else r :: keep
          | none => r :: keep
      | none =>
        match alookup outM r.Protocol with
        | some m2 => if alookupD m2 r.PeerIP = i then keep else r :: keep
        | none => r :: keep
    else r :: keep

/-- `squashAcceptRules`: the effective rule list and the squashed
protocols. -/
def squashAcceptRules (nm : NetworkMap) : List FirewallRule × List PProtocol :=
  let parts := squashParts nm
  if PProtocol.ALL ∈ parts.squashedProtocols then
    (parts.squashedRules, parts.squashedProtocols)
  else if parts.squashedRules.length = 0 then
    (nm.FirewallRules, parts.squashedProtocols)
  else
    let rules := filterSquashedGo parts.inM parts.outM parts.squashedProtocols 0 nm.FirewallRules
    (rules ++ parts.squashedRules, parts.squashedProtocols)

/-- The argument record of one `firewall.Manager.AddFiltering` call. -/
structure AddCall where
  ip : IPv4
  protocol : String
  sourcePort : Option (List Int)
  destPort : Option (List Int)
  direction : FDirection
  action : Nat
  ipsetName : String
  comment : String
deriving DecidableEq, Repr

/-- One observable backend interaction of the reconciler. -/
inductive Event
  | add : AddCall → Option (List Nat) → Event
  | del : Nat → Event
  | flush : Event
deriving DecidableEq, Repr

/-- Modelled from the spec: the firewall backend capability. `addOk n`
decides whether the `n`-th `AddFiltering` call of the backend lifetime
succeeds; on success the interpreter mints the fresh handle `n`.
`DeleteRule` and `Flush` errors are logged and ignored by every caller, so
they are not modelled. -/
structure Backend where
  addOk : Nat → Bool

/-- Interpret one `AddFiltering` call: `w` counts the `AddFiltering` calls
already made on this backend; the call is recorded in the trace and, on
success, returns the fresh handle list `[w]`. -/
def addFiltering (be : Backend) (w : Nat) (tr : List Event) (c : AddCall) :
    Option (List Nat) × Nat × List Event :=
  if be.addOk w then (some [w], w + 1, tr ++ [Event.add c (some [w])])
  else (none, w + 1, tr ++ [Event.add c none])

/-- `addInRules`: the primary IN rule, then, unless
`shouldSkipInvertedRule`, the OUT companion with source and destination
ports swapped. -/
def addInRules (be : Backend) (w : Nat) (tr : List Event) (ip : IPv4) (protocol : String)
    (port : Option (List Int)) (action : Nat) (ipsetName comment : String) :
    Except String (List Nat) × Nat × List Event :=
  let (res, w, tr) := addFiltering be w tr
    ⟨ip, protocol, none, port, FDirection.IN, action, ipsetName, comment⟩
  match res with
  | none => (.error "failed to add firewall rule", w, tr)
  | some rules =>
    if shouldSkipInvertedRule protocol port then (.ok rules, w, tr)
    else
      let (res2, w, tr) := addFiltering be w tr
        ⟨ip, protocol, port, none, FDirection.OUT, action, ipsetName, comment⟩
      match res2 with
      | none => (.error "failed to add firewall rule", w, tr)
      | some rules2 => (.ok (rules ++ rules2), w, tr)

/-- `addOutRules`: the primary OUT rule, then, unless
`shouldSkipInvertedRule`, the IN companion with source and destination
ports swapped. -/
def addOutRules (be : Backend) (w : Nat) (tr : List Event) (ip : IPv4) (protocol : String)
    (port : Option (List Int)) (action : Nat) (ipsetName comment : String) :
    Except String (List Nat) × Nat × List Event :=
  let (res, w, tr) := addFiltering be w tr
    ⟨ip, protocol, none, port, FDirection.OUT, action, ipsetName, comment⟩
  match res with
  | none => (.error "failed to add firewall rule", w, tr)
  | some rules =>
    if shouldSkipInvertedRule protocol port then (.ok rules, w, tr)
    else
      let (res2, w, tr) := addFiltering be w tr
        ⟨ip, protocol, port, none, FDirection.IN, action, ipsetName, comment⟩
      match res2 with
      | none => (.error "failed to add firewall rule", w, tr)
      | some rules2 => (.ok (rules ++ rules2), w, tr)

/-- The pure translation prefix of `protoRuleToFirewallRule` (manager.go
lines 156-180): parse the peer IP, convert protocol and action, parse the
port. -/
def translateRule (r : FirewallRule) :
    Except String (IPv4 × String × Nat × Option (List Int)) :=
  match parseIP r.PeerIP with
  | none => .error "invalid IP address, skipping firewall rule"
  | some ip =>
    match convertToFirewallProtocol r.Protocol with
    | .error e => .error e
    | .ok protocol =>
      match convertFirewallAction r.Action with
      | .error e => .error e
      | .ok action =>
        if r.Port = "" then .ok (ip, protocol, action, none)
        else
          match atoi r.Port with
          | none => .error "invalid port, skipping firewall rule"
          | some value => .ok (ip, protocol, action, some [value])

/-- The rule ID `protoRuleToFirewallRule` computes right after translation,
before consulting the `rulesPairs` cache. -/
def ruleIDOf (r : FirewallRule) : Option String :=
  match translateRule r with
  | .error _ => none
  | .ok (ip, protocol, action, port) =>
    some (getRuleID ip protocol (dirInt r.Direction) port action "")

/-- `protoRuleToFirewallRule`: translate one rule; reuse the cached handle
pair when the rule ID is already in `rulesPairs`; otherwise install via
`addInRules`/`addOutRules` (an invalid direction fails). -/
def protoRuleToFirewallRule (be : Backend) (w : Nat) (rulesPairs : List (String × List Nat))
    (tr : List Event) (r : FirewallRule) (ipsetName : String) :
    Except String (String × List Nat) × Nat × List Event :=
  match translateRule r with
  | .error e => (.error e, w, tr)
  | .ok (ip, protocol, action, port) =>
    let ruleID := getRuleID ip protocol (dirInt r.Direction) port action ""
    match alookup rulesPairs ruleID with
    | some rulesPair => (.ok (ruleID, rulesPair), w, tr)
    | none =>
      match r.Direction with
      | .IN =>
        match addInRules be w tr ip protocol port action ipsetName "" with
        | (.error e, w, tr) => (.error e, w, tr)
        | (.ok rules, w, tr) => (.ok (ruleID, rules), w, tr)
      | .OUT =>
        match addOutRules be w tr ip protocol port action ipsetName "" with
        | (.error e, w, tr) => (.error e, w, tr)
        | (.ok rules, w, tr) => (.ok (ruleID, rules), w, tr)
      | .INVALID => (.error "invalid direction, skipping firewall rule", w, tr)

/-- `rollBack`: delete every handle recorded in `newRulePairs` (delete
errors are logged and ignored). -/
def rollBack (newRulePairs : List (String × List Nat)) (tr : List Event) : List Event :=
  newRulePairs.foldl (fun tr kv => kv.2.foldl (fun tr h => tr ++ [Event.del h]) tr) tr

/-- The mutable state of the install loop of `ApplyFiltering`. -/
structure LoopSt where
  rulesPairs : List (String × List Nat)
  newRulePairs : List (String × List Nat)
  ipsetCounter : Nat
  selMap : List (String × String)
  w : Nat
  tr : List Event

/-- The IP-set name step at the top of the install loop (manager.go lines
119-125): look the rule's grouping selector up in `ipsetByRuleSelectors`;
on a miss, increment `ipsetCounter` and mint `fmt.Sprintf("nb%07d", c)`. -/
def mintName (st : LoopSt) (r : FirewallRule) : LoopSt × String :=
  let selector := getRuleGroupingSelector r
  match alookup st.selMap selector with
  | some name => (st, name)
  | none =>
    let c := st.ipsetCounter + 1
    let name := ipsetNameOf c
    ({ st with ipsetCounter := c, selMap := ainsert st.selMap selector name }, name)

/-- The install loop of `ApplyFiltering` (manager.go lines 116-136): mint
or reuse the IP-set name for the rule selector, translate-and-install; on
any error, roll back `newRulePairs` and break; on success record the pair
in both `rulesPairs` and `newRulePairs`. `rulesLen` is `len(rules)` of the
full effective list. -/
def installLoop (be : Backend) (rulesLen : Nat) (st : LoopSt) :
    List FirewallRule → LoopSt
  | [] => st
  | r :: rest =>
    let (st2, ipsetName) := mintName st r
    match protoRuleToFirewallRule be st2.w st2.rulesPairs st2.tr r ipsetName with
    | (.error _, w, tr) =>
      { st2 with w := w, tr := rollBack st2.newRulePairs tr }
    | (.ok (pairID, rulePair), w, tr) =>
      let st3 :=
        if rulesLen > 0 then
          { st2 with rulesPairs := ainsert st2.rulesPairs pairID rulePair,
                     newRulePairs := ainsert st2.newRulePairs pairID rulePair,
                     w := w, tr := tr }
        else { st2 with w := w, tr := tr }
      installLoop be rulesLen st3 rest

/-- The stale-rule removal loop of `ApplyFiltering` (manager.go lines
138-148): delete the handles of every `rulesPairs` entry whose ID is not in
`newRulePairs` and drop the entry. -/
def staleRemoval (newRulePairs : List (String × List Nat)) :
    List (String × List Nat) → List Event → List (String × List Nat) × List Event
  | [], tr => ([], tr)
  | (k, hs) :: rest, tr =>
    if (alookup newRulePairs k).isSome then
      let (rest2, tr2) := staleRemoval newRulePairs rest tr
      ((k, hs) :: rest2, tr2)
    else
      let tr := hs.foldl (fun tr h => tr ++ [Event.del h]) tr
      staleRemoval newRulePairs rest tr

/-- Whether the network map's peer config declares SSH enabled (nil
pointers read as disabled). -/
def sshEnabledOf (nm : NetworkMap) : Bool :=
  match nm.peerConfig with
  | none => false
  | some pc =>
    match pc.sshConfig with
    | none => false
    | some sc => sc.SshEnabled

/-- Modelled from the spec: `ssh.DefaultSSHPort` (package `client/ssh` is
not under the sources; the spec names TCP port 22). -/
def DefaultSSHPort : Nat := 22

/-- The SSH fallback step of `ApplyFiltering` (manager.go lines 70-91):
append the default SSH accept rule unless SSH is disabled or `ALL` or
`TCP` was squashed. -/
def applySSH (nm : NetworkMap) (rules : List FirewallRule)
    (squashedProtocols : List PProtocol) : List FirewallRule :=
  let enableSSH := sshEnabledOf nm
  let okAll := PProtocol.ALL ∈ squashedProtocols
  let enableSSH := if okAll then enableSSH && !(decide okAll) else enableSSH
  let okTcp := PProtocol.TCP ∈ squashedProtocols
  let enableSSH := if okTcp then enableSSH && !(decide okTcp) else enableSSH
  if enableSSH then
    rules ++ [{ PeerIP := "0.0.0.0", Direction := PDirection.IN,
                Action := PAction.ACCEPT, Protocol := PProtocol.TCP,
                Port := natRepr DefaultSSHPort }]
  else rules

/-- The legacy-compatibility step of `ApplyFiltering` (manager.go lines
93-111): with an empty rules list and an unset `FirewallRulesIsEmpty`
flag, allow all traffic in both directions. -/
def applyLegacy (nm : NetworkMap) (rules : List FirewallRule) : List FirewallRule :=
  if nm.FirewallRules.length = 0 ∧ nm.FirewallRulesIsEmpty = false then
    rules ++
      [{ PeerIP := "0.0.0.0", Direction := PDirection.IN, Action := PAction.ACCEPT,
         Protocol := PProtocol.ALL, Port := "" },
       { PeerIP := "0.0.0.0", Direction := PDirection.OUT, Action := PAction.ACCEPT,
         Protocol := PProtocol.ALL, Port := "" }]
  else rules

/-- The effective rule list `ApplyFiltering` walks: the squasher's output
with the SSH fallback and legacy rules appended. -/
def effectiveRules (nm : NetworkMap) : List FirewallRule :=
  let (rules, squashedProtocols) := squashAcceptRules nm
  applyLegacy nm (applySSH nm rules squashedProtocols)

/-- The persistent state of a `DefaultManager`. -/
structure ManagerState where
  ipsetCounter : Nat
  rulesPairs : List (String × List Nat)
deriving DecidableEq, Repr

/-- `NewDefaultManager`: empty rule map, counter zero. -/
def initialManager : ManagerState := ⟨0, []⟩

/-- `ApplyFiltering`: the full reconciliation pass. Returns the new manager
state, the backend's add-call count, the event trace of this call and the
per-call IP-set selector map (`ipsetByRuleSelectors`). A nil firewall
manager (`none`) returns before the `Flush` defer is installed. -/
def ApplyFiltering (fw : Option Backend) (w : Nat) (st : ManagerState) (nm : NetworkMap) :
    ManagerState × Nat × List Event × List (String × String) :=
  match fw with
  | none => (st, w, [], [])
  | some be =>
    let rules := effectiveRules nm
    let ls := installLoop be rules.length
      ⟨st.rulesPairs, [], st.ipsetCounter, [], w, []⟩ rules
    let (_, tr) := staleRemoval ls.newRulePairs ls.rulesPairs ls.tr
    (⟨ls.ipsetCounter, ls.newRulePairs⟩, ls.w, tr ++ [Event.flush], ls.selMap)

/-- A sequence of `ApplyFiltering` calls on one reconciler, accumulating
the IP-set names minted by each call. -/
def runSeq (be : Backend) : List NetworkMap → Nat → ManagerState → List String →
    ManagerState × Nat × List String
  | [], w, st, names => (st, w, names)
  | nm :: rest, w, st, names =>
    let (st2, w2, _, selMap) := ApplyFiltering (some be) w st nm
    runSeq be rest w2 st2 (names ++ selMap.map (fun kv => kv.2))

/-- The `AddFiltering` calls recorded in a trace. -/
def addCalls (tr : List Event) : List Event :=
  tr.filter (fun e => match e with | Event.add _ _ => true | _ => false)

/-- The `DeleteRule` calls recorded in a trace. -/
def delCalls (tr : List Event) : List Event :=
  tr.filter (fun e => match e with | Event.del _ => true | _ => false)

/-- A specific-peer, port-less IN ACCEPT TCP rule for peer `10.0.0.1`. -/
def inTcpAccept1 : FirewallRule := ⟨"10.0.0.1", .IN, .ACCEPT, .TCP, ""⟩

/-- A specific-peer, port-less IN ACCEPT TCP rule for peer `10.0.0.2`. -/
def inTcpAccept2 : FirewallRule := ⟨"10.0.0.2", .IN, .ACCEPT, .TCP, ""⟩

/-- A specific-peer, port-less IN ACCEPT TCP rule for peer `10.0.0.3`. -/
def inTcpAccept3 : FirewallRule := ⟨"10.0.0.3", .IN, .ACCEPT, .TCP, ""⟩

/-- A network map carrying exactly the rule for peer `10.0.0.1`. -/
def nmA : NetworkMap := ⟨[inTcpAccept1], true, [], [], none⟩

/-- A network map carrying the rules for peers `10.0.0.2` and `10.0.0.3`. -/
def nmBC : NetworkMap := ⟨[inTcpAccept2, inTcpAccept3], true, [], [], none⟩

/-- A backend that accepts the first two `AddFiltering` calls of its
lifetime and fails every later one. -/
def failThirdBackend : Backend := ⟨fun n => n < 2⟩

/-- A backend that accepts every `AddFiltering` call. -/
def okBackend : Backend := ⟨fun _ => true⟩

/-- A backend that fails every `AddFiltering` call. -/
def failBackend : Backend := ⟨fun _ => false⟩

/-- The rule ID of `inTcpAccept1`. -/
def idOfRule1 : String := (ruleIDOf inTcpAccept1).getD ""

/-- C1 (code bug): install `10.0.0.1` (handle 0), then apply a map with
`10.0.0.2` (installed, handle 1) and `10.0.0.3`, whose `AddFiltering`
fails. The claim (and the spec) says the pre-call rule's handles survive
and `installed` still holds exactly the pre-call entries; the code instead
breaks out of the install loop but still runs the stale-removal loop and
the final map assignment, so the trace of the failing call deletes the
pre-call handle 0 and the pre-call entry is gone from the installed map
(which now records the already-rolled-back new pair instead). -/
theorem applyFiltering_failure_deletes_precall_rules :
    (ApplyFiltering (some failThirdBackend) 0 initialManager nmA).1.rulesPairs
        = [(idOfRule1, [0])] ∧
    (let call1 := ApplyFiltering (some failThirdBackend) 0 initialManager nmA
     let call2 := ApplyFiltering (some failThirdBackend) call1.2.1 call1.1 nmBC
     (∃ c, Event.add c none ∈ call2.2.2.1) ∧
       Event.del 0 ∈ call2.2.2.1 ∧
       alookup call2.1.rulesPairs idOfRule1 = none ∧
       call2.1.rulesPairs ≠ (ApplyFiltering (some failThirdBackend) 0
         initialManager nmA).1.rulesPairs) := by
  refine ⟨by decide, ⟨⟨⟨10, 0, 0, 3⟩, ProtocolTCP, none, none, FDirection.IN,
    ActionAccept, ipsetNameOf 2, ""⟩, by decide⟩, by decide, by decide, by decide⟩

/-- A rule whose peer IP does not parse, placed before a valid rule. -/
def invalidIpRule : FirewallRule := ⟨"not-an-ip", .IN, .ACCEPT, .TCP, ""⟩

/-- A network map with an untranslatable rule followed by a valid one. -/
def nmBadThenGood : NetworkMap := ⟨[invalidIpRule, inTcpAccept1], true, [], [], none⟩

/-- C2 (code bug): the first rule of `nmBadThenGood` fails translation
(invalid peer IP) and the second is valid; the claim (and the code's own
error text "skipping firewall rule") says the invalid rule is skipped and
the remaining rules are processed. The code instead rolls back and breaks
out of the install loop on the translation error, so with an
always-accepting backend no `AddFiltering` call is made at all and the
valid rule is never installed. -/
theorem translation_error_breaks_loop :
    translateRule invalidIpRule = .error "invalid IP address, skipping firewall rule" ∧
    (translateRule inTcpAccept1).toOption.isSome = true ∧
    inTcpAccept1 ∈ effectiveRules nmBadThenGood ∧
    (let call := ApplyFiltering (some okBackend) 0 initialManager nmBadThenGood
     addCalls call.2.2.1 = [] ∧ call.1.rulesPairs = []) := by
  exact ⟨by rfl, by decide, by decide, by decide, by decide⟩

/-- A map whose first rule is an IN TCP DROP and whose later IN TCP ACCEPT
rules cover both peer IPs of the network. -/
def nmDropThenAccepts : NetworkMap :=
  ⟨[⟨"10.0.0.1", .IN, .DROP, .TCP, ""⟩, inTcpAccept1, inTcpAccept2],
    true, [⟨["10.0.0.1"]⟩, ⟨["10.0.0.2"]⟩], [], none⟩

/-- The synthetic wildcard rule for TCP in direction IN. -/
def wildcardInTcp : FirewallRule := ⟨"0.0.0.0", .IN, .ACCEPT, .TCP, ""⟩

/-- C3 (code bug): `nmDropThenAccepts` has an IN TCP rule with action DROP,
so by the claim (and the code's own comment: the protocol map is zeroed
"to notify squash function that this protocol can't be squashed" when
"any of the rule has DROP action type") no synthetic TCP wildcard may be
emitted for IN. The code only resets the protocol's inner map, and the
later ACCEPT rules repopulate it, so the squasher does emit the synthetic
`0.0.0.0` IN TCP wildcard and records TCP as squashed. -/
theorem drop_rule_does_not_latch_squash :
    (∃ r ∈ nmDropThenAccepts.FirewallRules,
      r.Protocol = PProtocol.TCP ∧ r.Direction = PDirection.IN ∧
        r.Action = PAction.DROP) ∧
    wildcardInTcp ∈ (squashAcceptRules nmDropThenAccepts).1 ∧
    PProtocol.TCP ∈ (squashAcceptRules nmDropThenAccepts).2 := by
  exact ⟨⟨⟨"10.0.0.1", .IN, .DROP, .TCP, ""⟩, by decide, by decide⟩, by decide, by decide⟩

/-- C10: a nil firewall backend makes `ApplyFiltering` return immediately:
no `AddFiltering`, `DeleteRule` or `Flush` events, and the manager state
(`rulesPairs` and `ipsetCounter`) unchanged. -/
theorem nil_firewall_is_noop (w : Nat) (st : ManagerState) (nm : NetworkMap) :
    ApplyFiltering none w st nm = (st, w, [], []) := rfl

/-- The default SSH accept rule (TCP port 22 from the wildcard peer). -/
def sshFallbackRule : FirewallRule :=
  { PeerIP := "0.0.0.0", Direction := PDirection.IN, Action := PAction.ACCEPT,
    Protocol := PProtocol.TCP, Port := "22" }

/-- The SSH default port renders as the text "22". -/
theorem natRepr_sshPort : natRepr DefaultSSHPort = "22" := rfl

/-- C7: the SSH fallback rule {peerIP=0.0.0.0, IN, ACCEPT, TCP, port=22}
is appended to the squasher's output exactly when the network map's peer
config declares SSH enabled and neither ALL nor TCP was squashed; with SSH
disabled, or ALL or TCP squashed, the rule list is returned unchanged. -/
theorem ssh_fallback_appended_iff (nm : NetworkMap) :
    applySSH nm (squashAcceptRules nm).1 (squashAcceptRules nm).2 =
      (if sshEnabledOf nm ∧ PProtocol.ALL ∉ (squashAcceptRules nm).2 ∧
          PProtocol.TCP ∉ (squashAcceptRules nm).2
       then (squashAcceptRules nm).1 ++ [sshFallbackRule]
       else (squashAcceptRules nm).1) := by
  unfold applySSH sshFallbackRule
  by_cases hA : PProtocol.ALL ∈ (squashAcceptRules nm).2 <;>
    by_cases hT : PProtocol.TCP ∈ (squashAcceptRules nm).2 <;>
      by_cases hS : sshEnabledOf nm <;>
        simp [hA, hT, hS, natRepr_sshPort]

/-- A port-less OUT ACCEPT TCP rule for peer `10.0.0.1`. -/
def outTcpAccept1 : FirewallRule := ⟨"10.0.0.1", .OUT, .ACCEPT, .TCP, ""⟩

/-- A map over two peer IPs whose IN TCP ACCEPT rules (indices 0, 1) cover
both IPs, with an OUT TCP ACCEPT rule at index 2 and a duplicate of the
index-0 rule at index 3. -/
def nmCrossDirection : NetworkMap :=
  ⟨[inTcpAccept1, inTcpAccept2, outTcpAccept1, inTcpAccept1],
    true, [⟨["10.0.0.1"]⟩, ⟨["10.0.0.2"]⟩], [], none⟩

/-- C4 (counterexample): on `nmCrossDirection` the squasher squashes TCP
for direction IN only, yet the output drops the OUT rule at index 2 (a
rule of the other direction, removed because its `(peerIP, index)`
matches the `out` map even though no OUT wildcard exists) and keeps the
duplicate IN rule at index 3 (a port-less specific-peer ACCEPT of a
squashed protocol and direction, retained because its index is not the
canonical one). Both refute the claim's characterisation of the output. -/
theorem squash_filter_not_direction_aware :
    (squashAcceptRules nmCrossDirection).1 = [inTcpAccept1, wildcardInTcp] ∧
    PProtocol.TCP ∈ (squashAcceptRules nmCrossDirection).2 ∧
    (∀ r ∈ (squashAcceptRules nmCrossDirection).1, r.Direction = PDirection.IN) ∧
    outTcpAccept1 ∈ nmCrossDirection.FirewallRules ∧
    outTcpAccept1 ∉ (squashAcceptRules nmCrossDirection).1 ∧
    inTcpAccept1 ∈ (squashAcceptRules nmCrossDirection).1 := by
  exact ⟨by decide, by decide, by decide, by decide, by decide, by decide⟩

/-- C5 (counterexample): with a backend whose `AddFiltering` always fails,
delivering the same one-rule map twice makes an `AddFiltering` call in the
second invocation as well (the failed rule was never cached), refuting the
unconditional idempotence claim. -/
theorem second_apply_can_add :
    (let call1 := ApplyFiltering (some failBackend) 0 initialManager nmA
     let call2 := ApplyFiltering (some failBackend) call1.2.1 call1.1 nmA
     (addCalls call2.2.2.1).length = 1) := by
  decide

/-- C6: installing one effective rule of direction IN or OUT that is not in
the cache makes exactly one `AddFiltering` call when the protocol is ALL or
ICMP or the rule has no port, and exactly two otherwise, where the
companion call uses the opposite direction with source and destination
ports swapped and the same peer IP, protocol, action and IP-set name. -/
theorem install_companion_rule (be : Backend) (w : Nat)
    (R : List (String × List Nat)) (tr : List Event) (r : FirewallRule)
    (ips : String) (ip : IPv4) (proto : String) (action : Nat)
    (port : Option (List Int))
    (hT : translateRule r = .ok (ip, proto, action, port))
    (hC : alookup R (getRuleID ip proto (dirInt r.Direction) port action "") = none)
    (hok : ∀ n, be.addOk n = true) :
    (shouldSkipInvertedRule proto port
        = (decide (proto = ProtocolALL) || decide (proto = ProtocolICMP) || port.isNone)) ∧
    (r.Direction = PDirection.IN →
      protoRuleToFirewallRule be w R tr r ips =
        (if shouldSkipInvertedRule proto port then
          (.ok (getRuleID ip proto (dirInt r.Direction) port action "", [w]), w + 1,
            tr ++ [Event.add ⟨ip, proto, none, port, FDirection.IN, action, ips, ""⟩ (some [w])])
        else
          (.ok (getRuleID ip proto (dirInt r.Direction) port action "", [w, w + 1]), w + 2,
            tr ++ [Event.add ⟨ip, proto, none, port, FDirection.IN, action, ips, ""⟩ (some [w]),
                   Event.add ⟨ip, proto, port, none, FDirection.OUT, action, ips, ""⟩ (some [w + 1])]))) ∧
    (r.Direction = PDirection.OUT →
      protoRuleToFirewallRule be w R tr r ips =
        (if shouldSkipInvertedRule proto port then
          (.ok (getRuleID ip proto (dirInt r.Direction) port action "", [w]), w + 1,
            tr ++ [Event.add ⟨ip, proto, none, port, FDirection.OUT, action, ips, ""⟩ (some [w])])
        else
          (.ok (getRuleID ip proto (dirInt r.Direction) port action "", [w, w + 1]), w + 2,
            tr ++ [Event.add ⟨ip, proto, none, port, FDirection.OUT, action, ips, ""⟩ (some [w]),
                   Event.add ⟨ip, proto, port, none, FDirection.IN, action, ips, ""⟩ (some [w + 1])]))) := by
  refine ⟨by unfold shouldSkipInvertedRule; simp, ?_, ?_⟩ <;> intro hdir <;>
    · rw [hdir] at hC
      simp only [protoRuleToFirewallRule, hT, hC, hdir, addInRules, addOutRules,
        addFiltering, hok]
      by_cases hs : shouldSkipInvertedRule proto port = true <;> simp [hs, hC]

/-- Witness for C6: a TCP port-80 IN rule, installed on an empty cache,
yields the primary IN call and the OUT companion with the ports swapped. -/
theorem install_companion_rule_witness :
    protoRuleToFirewallRule okBackend 0 [] [] ⟨"10.0.0.1", .IN, .ACCEPT, .TCP, "80"⟩
        "nb0000001" =
      (.ok (getRuleID ⟨10, 0, 0, 1⟩ ProtocolTCP 0 (some [80]) ActionAccept "", [0, 1]), 2,
        [Event.add ⟨⟨10, 0, 0, 1⟩, ProtocolTCP, none, some [80], FDirection.IN,
           ActionAccept, "nb0000001", ""⟩ (some [0]),
         Event.add ⟨⟨10, 0, 0, 1⟩, ProtocolTCP, some [80], none, FDirection.OUT,
           ActionAccept, "nb0000001", ""⟩ (some [1])]) := by
  have h := install_companion_rule okBackend 0 [] []
    ⟨"10.0.0.1", .IN, .ACCEPT, .TCP, "80"⟩ "nb0000001" ⟨10, 0, 0, 1⟩ ProtocolTCP
    ActionAccept (some [80]) (by rfl) (by rfl) (fun n => rfl)
  rw [h.2.1 rfl]
  rfl

/-- Whether rule `r` at original index `i` is the canonical entry of
calculation map `m`: the map has the rule's protocol and the recorded
index of the rule's peer IP (0 when the peer IP is absent, the Go zero
value) equals `i`. Stated from the spec's words for the C4 comparison. -/
def matchesCanonical (m : ProtoMatch) (r : FirewallRule) (i : Nat) : Bool :=
  match alookup m r.Protocol with
  | none => false
  | some mp => alookupD mp r.PeerIP = i

/-- The amended C4 removal condition: the rule's protocol is squashed and
its `(peerIP, index)` is canonical in the IN map or in the OUT map,
regardless of the rule's own direction. -/
def removedBySquash (inM outM : ProtoMatch) (sq : List PProtocol)
    (i : Nat) (r : FirewallRule) : Prop :=
  r.Protocol ∈ sq ∧
    (matchesCanonical inM r i = true ∨ matchesCanonical outM r i = true)

instance (inM outM : ProtoMatch) (sq : List PProtocol) (i : Nat) (r : FirewallRule) :
    Decidable (removedBySquash inM outM sq i r) := by
  unfold removedBySquash; infer_instance

/-- Keep the rules not removed by `removedBySquash`, indexing from `i`. -/
def filterIdx (inM outM : ProtoMatch) (sq : List PProtocol) :
    Nat → List FirewallRule → List FirewallRule
  | _, [] => []
  | i, r :: rest =>
    if removedBySquash inM outM sq i r then filterIdx inM outM sq (i + 1) rest
    else r :: filterIdx inM outM sq (i + 1) rest

theorem filterSquashedGo_eq_filterIdx (inM outM : ProtoMatch) (sq : List PProtocol) :
    ∀ (l : List FirewallRule) (i : Nat),
      filterSquashedGo inM outM sq i l = filterIdx inM outM sq i l := by
  intro l
  induction l with
  | nil => intro i; rfl
  | cons r rest ih =>
    intro i
    simp only [filterSquashedGo, filterIdx, ih]
    by_cases hp : r.Protocol ∈ sq
    · simp only [hp, if_true]
      rcases hin : alookup inM r.Protocol with _ | m
      · rcases hout : alookup outM r.Protocol with _ | m2
        · simp [removedBySquash, matchesCanonical, hin, hout, hp]
        · by_cases h2 : alookupD m2 r.PeerIP = i <;>
            simp [removedBySquash, matchesCanonical, hin, hout, hp, h2]
      · by_cases h1 : alookupD m r.PeerIP = i
        · simp [removedBySquash, matchesCanonical, hin, hp, h1]
        · rcases hout : alookup outM r.Protocol with _ | m2
          · simp [removedBySquash, matchesCanonical, hin, hout, hp, h1]
          · by_cases h2 : alookupD m2 r.PeerIP = i <;>
              simp [removedBySquash, matchesCanonical, hin, hout, hp, h1, h2]
    · simp [removedBySquash, hp]

theorem filterIdx_keeps_other_protocols (inM outM : ProtoMatch) (sq : List PProtocol)
    (r : FirewallRule) (hp : r.Protocol ∉ sq) :
    ∀ (l : List FirewallRule) (i : Nat), r ∈ l → r ∈ filterIdx inM outM sq i l := by
  intro l
  induction l with
  | nil => intro i h; cases h
  | cons x rest ih =>
    intro i h
    rcases List.mem_cons.mp h with h | h
    · subst h
      have : ¬ removedBySquash inM outM sq i r := fun hr => hp hr.1
      simp [filterIdx, this]
    · by_cases hx : removedBySquash inM outM sq i x <;>
        simp [filterIdx, hx, ih (i + 1) h]

/-- C4 (amended): when ALL is not squashed and at least one wildcard was
emitted, the squasher's output is the original rule list with exactly
those rules removed that `removedBySquash` names (protocol squashed and
`(peerIP, index)` canonical in the IN or the OUT map, the rule's own
direction never consulted, a missing peer IP reading as index 0), followed
by the squashed wildcard rules; and no rule of another protocol is
removed. -/
theorem squash_output_characterisation (nm : NetworkMap)
    (hAll : PProtocol.ALL ∉ (squashParts nm).squashedProtocols)
    (hNe : (squashParts nm).squashedRules ≠ []) :
    (squashAcceptRules nm).1 =
      filterIdx (squashParts nm).inM (squashParts nm).outM
          (squashParts nm).squashedProtocols 0 nm.FirewallRules ++
        (squashParts nm).squashedRules ∧
    (∀ r ∈ nm.FirewallRules,
      r.Protocol ∉ (squashParts nm).squashedProtocols →
        r ∈ (squashAcceptRules nm).1) := by
  have hlen : (squashParts nm).squashedRules.length ≠ 0 := by
    intro h; exact hNe (List.length_eq_zero.mp h)
  have hmain : (squashAcceptRules nm).1 =
      filterIdx (squashParts nm).inM (squashParts nm).outM
          (squashParts nm).squashedProtocols 0 nm.FirewallRules ++
        (squashParts nm).squashedRules := by
    unfold squashAcceptRules
    simp only [hAll, if_false, hlen, filterSquashedGo_eq_filterIdx]
  refine ⟨hmain, fun r hr hp => ?_⟩
  rw [hmain]
  exact List.mem_append_left _ (filterIdx_keeps_other_protocols _ _ _ r hp _ 0 hr)

/-- Witness for C4 (amended): the characterisation instantiated at
`nmCrossDirection`, whose hypotheses hold by evaluation. -/
theorem squash_output_characterisation_witness :
    PProtocol.ALL ∉ (squashParts nmCrossDirection).squashedProtocols ∧
    (squashParts nmCrossDirection).squashedRules ≠ [] ∧
    (squashAcceptRules nmCrossDirection).1 =
      filterIdx (squashParts nmCrossDirection).inM (squashParts nmCrossDirection).outM
          (squashParts nmCrossDirection).squashedProtocols 0
          nmCrossDirection.FirewallRules ++
        (squashParts nmCrossDirection).squashedRules :=
  ⟨by decide, by decide,
    (squash_output_characterisation nmCrossDirection (by decide) (by decide)).1⟩

theorem hexDigitChar_inj {a b : Nat} (ha : a < 16) (hb : b < 16)
    (h : hexDigitChar a = hexDigitChar b) : a = b := by
  have H : ∀ x : Fin 16, ∀ y : Fin 16, hexDigitChar x.val = hexDigitChar y.val → x = y := by
    decide
  have := H ⟨a, ha⟩ ⟨b, hb⟩ h
  simpa using congrArg Fin.val this

theorem hexChars_cons (b : Nat) (t : List Nat) :
    hexChars (b :: t) = hexDigitChar (b / 16) :: hexDigitChar (b % 16) :: hexChars t := by
  simp [hexChars]

theorem hexChars_inj : ∀ (l1 l2 : List Nat), (∀ b ∈ l1, b < 256) → (∀ b ∈ l2, b < 256) →
    hexChars l1 = hexChars l2 → l1 = l2 := by
  intro l1
  induction l1 with
  | nil =>
    intro l2 _ _ h
    cases l2 with
    | nil => rfl
    | cons b t => rw [hexChars_cons] at h; exact absurd h (by simp [hexChars])
  | cons b1 t1 ih =>
    intro l2 h1 h2 h
    cases l2 with
    | nil => rw [hexChars_cons] at h; exact absurd h (by simp [hexChars])
    | cons b2 t2 =>
      rw [hexChars_cons, hexChars_cons] at h
      have hb1 := h1 b1 (by simp)
      have hb2 := h2 b2 (by simp)
      obtain ⟨e1, e2, e3⟩ : hexDigitChar (b1 / 16) = hexDigitChar (b2 / 16) ∧
          hexDigitChar (b1 % 16) = hexDigitChar (b2 % 16) ∧ hexChars t1 = hexChars t2 := by
        simpa using h
      have d1 : b1 / 16 = b2 / 16 := hexDigitChar_inj (by omega) (by omega) e1
      have d2 : b1 % 16 = b2 % 16 := hexDigitChar_inj (by omega) (by omega) e2
      have : b1 = b2 := by omega
      rw [this, ih t2 (fun x hx => h1 x (by simp [hx])) (fun x hx => h2 x (by simp [hx])) e3]

theorem utf8EncodeCharNat_ne_nil (c : Nat) : utf8EncodeCharNat c ≠ [] := by
  unfold utf8EncodeCharNat; split_ifs <;> simp

theorem utf8EncodeCharNat_lt_256 {c : Nat} (hc : c < 1114112) :
    ∀ x ∈ utf8EncodeCharNat c, x < 256 := by
  unfold utf8EncodeCharNat
  split_ifs <;> intro x hx <;> simp at hx <;> omega

theorem utf8HeadInj {a b : Nat} (ha : a < 1114112) (hb : b < 1114112) {r1 r2 : List Nat}
    (h : utf8EncodeCharNat a ++ r1 = utf8EncodeCharNat b ++ r2) : a = b ∧ r1 = r2 := by
  unfold utf8EncodeCharNat at h
  split_ifs at h <;>
    simp only [List.cons_append, List.nil_append, List.cons.injEq] at h <;>
      first
        | (exfalso; omega)
        | exact ⟨by omega, by tauto⟩

theorem char_toNat_lt (c : Char) : c.toNat < 1114112 := by
  show c.val.toNat < 1114112
  rcases c.valid with h | ⟨h1, h2⟩ <;> omega

theorem char_toNat_inj {c1 c2 : Char} (h : c1.toNat = c2.toNat) : c1 = c2 :=
  Char.eq_of_val_eq (UInt32.ext h)

theorem utf8CharsInj : ∀ (l1 l2 : List Char),
    l1.flatMap (fun ch => utf8EncodeCharNat ch.toNat) =
      l2.flatMap (fun ch => utf8EncodeCharNat ch.toNat) → l1 = l2 := by
  intro l1
  induction l1 with
  | nil =>
    intro l2 h
    cases l2 with
    | nil => rfl
    | cons c t =>
      simp only [List.flatMap_nil, List.flatMap_cons] at h
      exact absurd h.symm (by simp [utf8EncodeCharNat_ne_nil])
  | cons c1 t1 ih =>
    intro l2 h
    cases l2 with
    | nil =>
      simp only [List.flatMap_nil, List.flatMap_cons] at h
      exact absurd h (by simp [utf8EncodeCharNat_ne_nil])
    | cons c2 t2 =>
      simp only [List.flatMap_cons] at h
      obtain ⟨hc, ht⟩ := utf8HeadInj (char_toNat_lt c1) (char_toNat_lt c2) h
      rw [char_toNat_inj hc, ih t2 ht]

theorem utf8Bytes_inj {s1 s2 : String} (h : utf8Bytes s1 = utf8Bytes s2) : s1 = s2 := by
  have := utf8CharsInj s1.data s2.data h
  cases s1; cases s2; exact congrArg String.mk this

theorem utf8Bytes_lt_256 (s : String) : ∀ x ∈ utf8Bytes s, x < 256 := by
  intro x hx
  simp only [utf8Bytes, List.mem_flatMap] at hx
  obtain ⟨c, _, hc⟩ := hx
  exact utf8EncodeCharNat_lt_256 (char_toNat_lt c) x hc

/-- C9: `getRuleID` is the hex encoding of the identifier string's bytes
(peer-IP text, then protocol, direction, action, comment, and the port
text when a port is present) followed by the fixed 16-byte MD5 digest of
the empty input; it is deterministic, and two rules receive the same rule
ID exactly when their identifier strings are equal (injectivity on
identifier strings, not mere collision resistance). -/
theorem rule_id_structure_and_injective :
    (∀ s : String, getRuleIDStr s = hexString (utf8Bytes s ++ md5EmptyDigest)) ∧
    (∀ (ip : IPv4) (proto : String) (direction : Nat) (port : Option (List Int))
        (action : Nat) (comment : String),
      getRuleID ip proto direction port action comment =
        getRuleIDStr (match port with
          | some p => ipString ip ++ proto ++ natRepr direction ++ natRepr action ++
              comment ++ portString p
          | none => ipString ip ++ proto ++ natRepr direction ++ natRepr action ++ comment)) ∧
    (∀ s1 s2 : String, getRuleIDStr s1 = getRuleIDStr s2 ↔ s1 = s2) := by
  refine ⟨fun s => rfl, fun ip proto direction port action comment => by
    unfold getRuleID; cases port <;> rfl, fun s1 s2 => ?_⟩
  constructor
  · intro h
    unfold getRuleIDStr hexString md5NewSum at h
    have hchars : hexChars (utf8Bytes s1 ++ md5EmptyDigest) =
        hexChars (utf8Bytes s2 ++ md5EmptyDigest) := by
      have := congrArg String.data h
      simpa using this
    have hd : ∀ x ∈ md5EmptyDigest, x < 256 := by decide
    have B1 : ∀ b ∈ utf8Bytes s1 ++ md5EmptyDigest, b < 256 := by
      intro b hb
      rcases List.mem_append.mp hb with hb | hb
      · exact utf8Bytes_lt_256 s1 b hb
      · exact hd b hb
    have B2 : ∀ b ∈ utf8Bytes s2 ++ md5EmptyDigest, b < 256 := by
      intro b hb
      rcases List.mem_append.mp hb with hb | hb
      · exact utf8Bytes_lt_256 s2 b hb
      · exact hd b hb
    have hbytes := hexChars_inj _ _ B1 B2 hchars
    exact utf8Bytes_inj (List.append_cancel_right hbytes)
  · intro h; rw [h]


theorem alookup_ainsert_self [DecidableEq κ] (m : List (κ × α)) (k : κ) (v : α) :
    alookup (ainsert m k v) k = some v := by
  induction m with
  | nil => simp [ainsert, alookup]
  | cons kv rest ih =>
    by_cases h : kv.1 = k
    · simp [ainsert, alookup, h]
    · simp [ainsert, alookup, h, ih]

theorem alookup_ainsert_ne [DecidableEq κ] (m : List (κ × α)) {k' k : κ} (v : α)
    (h : k' ≠ k) : alookup (ainsert m k' v) k = alookup m k := by
  induction m with
  | nil => simp [ainsert, alookup, h]
  | cons kv rest ih =>
    by_cases h2 : kv.1 = k'
    · simp [ainsert, alookup, h2, h]
    · simp only [ainsert, h2, if_false]
      by_cases h3 : kv.1 = k <;> simp [alookup, h3, ih]

theorem ainsert_same [DecidableEq κ] (m : List (κ × α)) (k : κ) (v : α)
    (h : alookup m k = some v) : ainsert m k v = m := by
  induction m with
  | nil => simp [alookup] at h
  | cons kv rest ih =>
    by_cases h2 : kv.1 = k
    · cases kv
      simp_all [alookup, ainsert]
    · simp only [alookup, h2, if_false] at h
      simp [ainsert, h2, ih h]

theorem alookup_isSome_of_mem [DecidableEq κ] {m : List (κ × α)} {k : κ} {v : α}
    (h : (k, v) ∈ m) : (alookup m k).isSome := by
  induction m with
  | nil => cases h
  | cons kv rest ih =>
    rcases List.mem_cons.mp h with h | h
    · simp [alookup, ← h]
    · by_cases h2 : kv.1 = k <;> simp [alookup, h2, ih h]

/-- A rule the install loop can always handle: it translates successfully
and carries a valid direction. -/
def ruleInstallable (r : FirewallRule) : Prop :=
  (∃ v, translateRule r = .ok v) ∧
    (r.Direction = PDirection.IN ∨ r.Direction = PDirection.OUT)

theorem mintName_fields (st : LoopSt) (r : FirewallRule) :
    (mintName st r).1.rulesPairs = st.rulesPairs ∧
    (mintName st r).1.newRulePairs = st.newRulePairs ∧
    (mintName st r).1.w = st.w ∧
    (mintName st r).1.tr = st.tr := by
  unfold mintName
  rcases h : alookup st.selMap (getRuleGroupingSelector r) with _ | name <;> simp [h]

theorem installLoop_newPairs_mono (be : Backend) (len : Nat) :
    ∀ (rules : List FirewallRule) (st : LoopSt) (k : String),
      (alookup st.newRulePairs k).isSome →
        (alookup (installLoop be len st rules).newRulePairs k).isSome := by
  intro rules
  induction rules with
  | nil => intro st k h; exact h
  | cons r rest ih =>
    intro st k h
    rcases hm : mintName st r with ⟨st2, ipsetName⟩
    have hf := mintName_fields st r
    rw [hm] at hf
    have h2 : (alookup st2.newRulePairs k).isSome := by rw [hf.2.1]; exact h
    unfold installLoop
    rw [hm]
    dsimp only
    rcases hp : protoRuleToFirewallRule be st2.w st2.rulesPairs st2.tr r ipsetName
      with ⟨res, w2, tr2⟩
    cases res with
    | error e => simpa using h2
    | ok pair =>
      rcases pair with ⟨pairID, rulePair⟩
      simp only []
      by_cases hl : len > 0 <;> simp only [hl, if_true, if_false] <;> apply ih
      · by_cases hk : pairID = k
        · subst hk; simp [alookup_ainsert_self]
        · simpa [alookup_ainsert_ne _ _ hk] using h2
      · exact h2


theorem protoRule_ok_of_installable (be : Backend) (hok : ∀ n, be.addOk n = true)
    (w : Nat) (R : List (String × List Nat)) (tr : List Event) (r : FirewallRule)
    (ips : String) (hr : ruleInstallable r) {id : String} (hid : ruleIDOf r = some id) :
    ∃ pair w2 tr2,
      protoRuleToFirewallRule be w R tr r ips = (.ok (id, pair), w2, tr2) := by
  obtain ⟨⟨ip, proto, action, port⟩, ht⟩ := hr.1
  have hid2 : id = getRuleID ip proto (dirInt r.Direction) port action "" := by
    simp [ruleIDOf, ht] at hid
    exact hid.symm
  subst hid2
  unfold protoRuleToFirewallRule
  rw [ht]
  dsimp only
  rcases hc : alookup R (getRuleID ip proto (dirInt r.Direction) port action "") with _ | pair
  · rcases hr.2 with hdir | hdir <;> rw [hdir] at hc ⊢ <;>
      simp only [hc, addInRules, addOutRules, addFiltering, hok, if_true] <;>
      by_cases hs : shouldSkipInvertedRule proto port <;> simp [hs]
  · exact ⟨pair, w, tr, rfl⟩

theorem installLoop_installs (be : Backend) (len : Nat) (hok : ∀ n, be.addOk n = true)
    (hlen : 0 < len) :
    ∀ (rules : List FirewallRule) (st : LoopSt),
      (∀ r ∈ rules, ruleInstallable r) →
      ((∀ r ∈ rules, ∀ id, ruleIDOf r = some id →
          (alookup (installLoop be len st rules).newRulePairs id).isSome) ∧
       (∀ k, (alookup (installLoop be len st rules).newRulePairs k).isSome →
          (alookup st.newRulePairs k).isSome ∨ ∃ r ∈ rules, ruleIDOf r = some k)) := by
  intro rules
  induction rules with
  | nil =>
    intro st _
    exact ⟨fun r hr => absurd hr (List.not_mem_nil r), fun k hk => Or.inl hk⟩
  | cons r rest ih =>
    intro st hall
    have hrI : ruleInstallable r := hall r (List.mem_cons_self r rest)
    obtain ⟨⟨ip, proto, action, port⟩, ht⟩ := hrI.1
    set id0 := getRuleID ip proto (dirInt r.Direction) port action "" with hid0
    have hidr : ruleIDOf r = some id0 := by
      simp [ruleIDOf, ht, hid0]
    rcases hm : mintName st r with ⟨st2, ipsetName⟩
    have hf := mintName_fields st r
    rw [hm] at hf
    obtain ⟨pair, w2, tr2, hp⟩ :=
      protoRule_ok_of_installable be hok st2.w st2.rulesPairs st2.tr r ipsetName hrI hidr
    set st3 : LoopSt :=
      { st2 with rulesPairs := ainsert st2.rulesPairs id0 pair,
                 newRulePairs := ainsert st2.newRulePairs id0 pair,
                 w := w2, tr := tr2 } with hst3
    have hstep : installLoop be len st (r :: rest) = installLoop be len st3 rest := by
      conv_lhs => unfold installLoop
      rw [hm]
      dsimp only
      rw [hp]
      dsimp only
      rw [if_pos hlen]
    rw [hstep]
    have hIH := ih st3 (fun x hx => hall x (List.mem_cons_of_mem r hx))
    refine ⟨fun x hx id hid => ?_, fun k hk => ?_⟩
    · rcases List.mem_cons.mp hx with hx | hx
      · subst hx
        rw [hidr] at hid
        have hide : id0 = id := by simpa using hid
        subst hide
        apply installLoop_newPairs_mono
        show (alookup st3.newRulePairs id0).isSome
        rw [hst3]
        simp [alookup_ainsert_self]
      · exact hIH.1 x hx id hid
    · rcases hIH.2 k hk with hk2 | ⟨x, hx, hidx⟩
      · by_cases he : id0 = k
        · subst he
          exact Or.inr ⟨r, List.mem_cons_self r rest, hidr⟩
        · left
          have heq : alookup st3.newRulePairs k = alookup st2.newRulePairs k := by
            rw [hst3]
            exact alookup_ainsert_ne _ _ he
          rw [heq, hf.2.1] at hk2
          exact hk2
      · exact Or.inr ⟨x, List.mem_cons_of_mem r hx, hidx⟩


theorem installLoop_cached (be : Backend) (len : Nat) (hlen : 0 < len) :
    ∀ (rules : List FirewallRule) (st : LoopSt),
      (∀ r ∈ rules, ∃ v, translateRule r = .ok v) →
      (∀ r ∈ rules, ∀ id, ruleIDOf r = some id → (alookup st.rulesPairs id).isSome) →
      (∀ k, (alookup st.newRulePairs k).isSome →
          alookup st.newRulePairs k = alookup st.rulesPairs k) →
      ((installLoop be len st rules).rulesPairs = st.rulesPairs ∧
       (installLoop be len st rules).tr = st.tr ∧
       (installLoop be len st rules).w = st.w ∧
       (∀ k, (alookup (installLoop be len st rules).newRulePairs k).isSome →
          alookup (installLoop be len st rules).newRulePairs k = alookup st.rulesPairs k) ∧
       (∀ r ∈ rules, ∀ id, ruleIDOf r = some id →
          (alookup (installLoop be len st rules).newRulePairs id).isSome)) := by
  intro rules
  induction rules with
  | nil =>
    intro st _ _ hINV
    exact ⟨rfl, rfl, rfl, hINV, fun r hr => absurd hr (List.not_mem_nil r)⟩
  | cons r rest ih =>
    intro st hT hC hINV
    obtain ⟨⟨ip, proto, action, port⟩, ht⟩ := hT r (List.mem_cons_self r rest)
    set id0 := getRuleID ip proto (dirInt r.Direction) port action "" with hid0
    have hidr : ruleIDOf r = some id0 := by simp [ruleIDOf, ht, hid0]
    rcases hm : mintName st r with ⟨st2, ipsetName⟩
    have hf := mintName_fields st r
    rw [hm] at hf
    obtain ⟨pair, hpair⟩ :=
      Option.isSome_iff_exists.mp (hC r (List.mem_cons_self r rest) id0 hidr)
    have hpair2 : alookup st2.rulesPairs id0 = some pair := by rw [hf.1]; exact hpair
    have hp : protoRuleToFirewallRule be st2.w st2.rulesPairs st2.tr r ipsetName =
        (.ok (id0, pair), st2.w, st2.tr) := by
      unfold protoRuleToFirewallRule
      rw [ht]
      dsimp only
      rw [← hid0, hpair2]
    have hsame : ainsert st2.rulesPairs id0 pair = st2.rulesPairs :=
      ainsert_same _ _ _ hpair2
    set st3 : LoopSt :=
      { st2 with rulesPairs := ainsert st2.rulesPairs id0 pair,
                 newRulePairs := ainsert st2.newRulePairs id0 pair,
                 w := st2.w, tr := st2.tr } with hst3
    have hstep : installLoop be len st (r :: rest) = installLoop be len st3 rest := by
      conv_lhs => unfold installLoop
      rw [hm]
      dsimp only
      rw [hp]
      dsimp only
      rw [if_pos hlen]
    have hst3rp : st3.rulesPairs = st.rulesPairs := by
      rw [hst3]
      show ainsert st2.rulesPairs id0 pair = st.rulesPairs
      rw [hsame, hf.1]
    have hst3INV : ∀ k, (alookup st3.newRulePairs k).isSome →
        alookup st3.newRulePairs k = alookup st3.rulesPairs k := by
      intro k hk
      rw [hst3rp]
      by_cases he : id0 = k
      · subst he
        rw [hst3]
        show alookup (ainsert st2.newRulePairs id0 pair) id0 = alookup st.rulesPairs id0
        rw [alookup_ainsert_self, hpair]
      · have h1 : alookup st3.newRulePairs k = alookup st2.newRulePairs k := by
          rw [hst3]; exact alookup_ainsert_ne _ _ he
        rw [h1] at hk ⊢
        rw [hf.2.1] at hk ⊢
        rw [hINV k hk, ← hf.1]
    have hIH := ih st3 (fun x hx => hT x (List.mem_cons_of_mem r hx))
      (fun x hx id hid => by rw [hst3rp]; exact hC x (List.mem_cons_of_mem r hx) id hid)
      (fun k hk => by rw [hst3rp] at *; exact hst3INV k hk)
    rw [hstep]
    refine ⟨?_, ?_, ?_, ?_, fun x hx id hid => ?_⟩
    · rw [hIH.1, hst3rp]
    · rw [hIH.2.1, hst3]
      show st2.tr = st.tr
      exact hf.2.2.2
    · rw [hIH.2.2.1, hst3]
      show st2.w = st.w
      exact hf.2.2.1
    · intro k hk
      rw [hIH.2.2.2.1 k hk, hst3rp]
    · rcases List.mem_cons.mp hx with hx | hx
      · subst hx
        rw [hidr] at hid
        have hide : id0 = id := by simpa using hid
        subst hide
        apply installLoop_newPairs_mono
        show (alookup st3.newRulePairs id0).isSome
        rw [hst3]
        simp [alookup_ainsert_self]
      · exact hIH.2.2.2.2 x hx id hid

theorem staleRemoval_none (np : List (String × List Nat)) :
    ∀ (rp : List (String × List Nat)) (tr : List Event),
      (∀ kv ∈ rp, (alookup np kv.1).isSome) →
      staleRemoval np rp tr = (rp, tr) := by
  intro rp
  induction rp with
  | nil => intro tr _; rfl
  | cons kv rest ih =>
    intro tr hall
    have hk := hall kv (List.mem_cons_self kv rest)
    rcases kv with ⟨k, hs⟩
    unfold staleRemoval
    rw [if_pos hk, ih tr (fun x hx => hall x (List.mem_cons_of_mem _ hx))]


theorem ApplyFiltering_some_eq (be : Backend) (w : Nat) (st : ManagerState) (nm : NetworkMap) :
    ApplyFiltering (some be) w st nm =
      (let rules := effectiveRules nm
       let ls := installLoop be rules.length
         ⟨st.rulesPairs, [], st.ipsetCounter, [], w, []⟩ rules
       (⟨ls.ipsetCounter, ls.newRulePairs⟩, ls.w,
         (staleRemoval ls.newRulePairs ls.rulesPairs ls.tr).2 ++ [Event.flush], ls.selMap)) := rfl

/-- C5 (amended): when every effective rule of `nm` translates successfully
with a valid direction and the backend accepts every `AddFiltering` call,
delivering `nm` twice in succession leaves the second invocation with the
bare `Flush` trace — zero `AddFiltering` calls, no rollback and no
stale-removal deletion — and every effective rule's rule ID is found in
the `rulesPairs` cache of the first call with its handles reused
unchanged. -/
theorem apply_twice_idempotent (be : Backend) (w : Nat) (st : ManagerState)
    (nm : NetworkMap) (hok : ∀ n, be.addOk n = true)
    (hE : ∀ r ∈ effectiveRules nm, ruleInstallable r) :
    (let call1 := ApplyFiltering (some be) w st nm
     let call2 := ApplyFiltering (some be) call1.2.1 call1.1 nm
     call2.2.2.1 = [Event.flush] ∧
     (∀ r ∈ effectiveRules nm, ∀ id, ruleIDOf r = some id →
        (alookup call1.1.rulesPairs id).isSome ∧
        alookup call2.1.rulesPairs id = alookup call1.1.rulesPairs id)) := by
  by_cases hrules : effectiveRules nm = []
  · simp only [ApplyFiltering_some_eq, hrules, installLoop, staleRemoval]
    exact ⟨rfl, by simp⟩
  · have hlen : 0 < (effectiveRules nm).length := List.length_pos.mpr hrules
    simp only [ApplyFiltering_some_eq]
    set len := (effectiveRules nm).length with hlendef
    set ls1 := installLoop be len
      ⟨st.rulesPairs, [], st.ipsetCounter, [], w, []⟩ (effectiveRules nm) with hls1
    set ls2 := installLoop be len
      ⟨ls1.newRulePairs, [], ls1.ipsetCounter, [], ls1.w, []⟩ (effectiveRules nm) with hls2
    have hA := installLoop_installs be len hok hlen (effectiveRules nm)
      ⟨st.rulesPairs, [], st.ipsetCounter, [], w, []⟩ hE
    rw [← hls1] at hA
    have hA2 : ∀ k, (alookup ls1.newRulePairs k).isSome →
        ∃ r ∈ effectiveRules nm, ruleIDOf r = some k := by
      intro k hk
      rcases hA.2 k hk with hfalse | h
      · simp [alookup] at hfalse
      · exact h
    have hB := installLoop_cached be len hlen (effectiveRules nm)
      ⟨ls1.newRulePairs, [], ls1.ipsetCounter, [], ls1.w, []⟩
      (fun r hr => (hE r hr).1)
      (fun r hr id hid => hA.1 r hr id hid)
      (fun k hk => by simp [alookup] at hk)
    rw [← hls2] at hB
    have hstale : staleRemoval ls2.newRulePairs ls2.rulesPairs ls2.tr =
        (ls2.rulesPairs, ls2.tr) := by
      apply staleRemoval_none
      intro kv hkv
      rcases kv with ⟨a, b⟩
      rw [hB.1] at hkv
      have hkv2 : (a, b) ∈ ls1.newRulePairs := hkv
      have hk : (alookup ls1.newRulePairs a).isSome := alookup_isSome_of_mem hkv2
      obtain ⟨r, hr, hid⟩ := hA2 a hk
      exact hB.2.2.2.2 r hr a hid
    refine ⟨?_, fun r hr id hid => ⟨hA.1 r hr id hid, ?_⟩⟩
    · rw [hstale]
      show ls2.tr ++ [Event.flush] = [Event.flush]
      rw [hB.2.1]
      rfl
    · rw [hB.2.2.2.1 id (hB.2.2.2.2 r hr id hid)]


/-- Witness for C5 (amended): the idempotence instantiated at `nmA` with
the always-accepting backend. -/
theorem apply_twice_idempotent_witness :
    (let call1 := ApplyFiltering (some okBackend) 0 initialManager nmA
     let call2 := ApplyFiltering (some okBackend) call1.2.1 call1.1 nmA
     call2.2.2.1 = [Event.flush] ∧
       (alookup call1.1.rulesPairs idOfRule1).isSome) := by
  have hE : ∀ r ∈ effectiveRules nmA, ruleInstallable r := by
    intro r hr
    have he : effectiveRules nmA = [inTcpAccept1] := rfl
    rw [he] at hr
    rw [List.mem_singleton.mp hr]
    exact ⟨⟨(⟨10, 0, 0, 1⟩, ProtocolTCP, ActionAccept, none), rfl⟩, Or.inl rfl⟩
  have h := apply_twice_idempotent okBackend 0 initialManager nmA (fun n => rfl) hE
  refine ⟨h.1, ?_⟩
  exact (h.2 inTcpAccept1 (by decide) idOfRule1 rfl).1


theorem natDigitsCore_fuel : ∀ (n f1 f2 : Nat), n < f1 → n < f2 →
    natDigitsCore f1 n = natDigitsCore f2 n := by
  intro n
  induction n using Nat.strong_induction_on with
  | _ n ih =>
    intro f1 f2 h1 h2
    rcases f1 with _ | f1
    · omega
    rcases f2 with _ | f2
    · omega
    unfold natDigitsCore
    by_cases h : n < 10
    · simp [h]
    · simp only [h, if_false]
      rw [ih (n / 10) (by omega) f1 f2 (by omega) (by omega)]

theorem natDigitsCore_ne_nil : ∀ (fuel n : Nat), n < fuel → natDigitsCore fuel n ≠ [] := by
  intro fuel
  rcases fuel with _ | fuel
  · intro n h; omega
  · intro n _
    unfold natDigitsCore
    by_cases h : n < 10 <;> simp [h]

theorem digitChar_inj10 {a b : Nat} (ha : a < 10) (hb : b < 10)
    (h : digitChar a = digitChar b) : a = b := by
  have H : ∀ x : Fin 10, ∀ y : Fin 10, digitChar x.val = digitChar y.val → x = y := by decide
  simpa using congrArg Fin.val (H ⟨a, ha⟩ ⟨b, hb⟩ h)

theorem digitChar_ne_zero {a : Nat} (ha : 1 ≤ a) (hb : a < 10) : digitChar a ≠ '0' := by
  have H : ∀ x : Fin 10, 1 ≤ x.val → digitChar x.val ≠ '0' := by decide
  exact H ⟨a, hb⟩ ha

theorem natDigitsCore_inj : ∀ (f1 n1 f2 n2 : Nat), n1 < f1 → n2 < f2 →
    natDigitsCore f1 n1 = natDigitsCore f2 n2 → n1 = n2 := by
  intro f1
  induction f1 with
  | zero => intro n1 f2 n2 h1 _ _; omega
  | succ f1 ih =>
    intro n1 f2 n2 h1 h2 h
    rcases f2 with _ | f2
    · omega
    · rw [show natDigitsCore (f1 + 1) n1 =
          (if n1 < 10 then [digitChar n1]
           else natDigitsCore f1 (n1 / 10) ++ [digitChar (n1 % 10)]) from rfl,
        show natDigitsCore (f2 + 1) n2 =
          (if n2 < 10 then [digitChar n2]
           else natDigitsCore f2 (n2 / 10) ++ [digitChar (n2 % 10)]) from rfl] at h
      by_cases ha : n1 < 10 <;> by_cases hb : n2 < 10
      · simp only [ha, hb, if_true] at h
        exact digitChar_inj10 ha hb (by simpa using h)
      · simp only [ha, hb, if_true, if_false] at h
        have := natDigitsCore_ne_nil f2 (n2 / 10) (by omega)
        rcases he : natDigitsCore f2 (n2 / 10) with _ | ⟨x, t⟩
        · exact absurd he this
        · rw [he] at h
          rcases t with _ | ⟨y, t2⟩ <;> simp at h
      · simp only [ha, hb, if_true, if_false] at h
        have := natDigitsCore_ne_nil f1 (n1 / 10) (by omega)
        rcases he : natDigitsCore f1 (n1 / 10) with _ | ⟨x, t⟩
        · exact absurd he this
        · rw [he] at h
          rcases t with _ | ⟨y, t2⟩ <;> simp at h
      · simp only [ha, hb, if_false] at h
        have h2 := congrArg List.reverse h
        simp only [List.reverse_append, List.reverse_cons, List.reverse_nil,
          List.nil_append, List.cons_append, List.cons.injEq] at h2
        obtain ⟨hd, ht⟩ := h2
        have hrec : natDigitsCore f1 (n1 / 10) = natDigitsCore f2 (n2 / 10) :=
          List.reverse_injective ht
        have hq : n1 / 10 = n2 / 10 := ih (n1 / 10) f2 (n2 / 10) (by omega) (by omega) hrec
        have hm : n1 % 10 = n2 % 10 := digitChar_inj10 (by omega) (by omega) hd
        omega

theorem natDigits_inj {m n : Nat} (h : natDigits m = natDigits n) : m = n :=
  natDigitsCore_inj (m + 1) m (n + 1) n (by omega) (by omega) h

theorem natDigitsCore_head_ne_zero : ∀ (fuel n : Nat), 1 ≤ n → n < fuel →
    (natDigitsCore fuel n).head? ≠ some '0' := by
  intro fuel
  induction fuel with
  | zero => intro n _ h; omega
  | succ fuel ih =>
    intro n hn hf
    unfold natDigitsCore
    by_cases h : n < 10
    · simpa [h] using digitChar_ne_zero hn h
    · simp only [h, if_false]
      have hne := natDigitsCore_ne_nil fuel (n / 10) (by omega)
      rcases he : natDigitsCore fuel (n / 10) with _ | ⟨x, t⟩
      · exact absurd he hne
      · have := ih (n / 10) (by omega) (by omega)
        rw [he] at this
        simpa using this


theorem dropWhile_replicate_append (p : Char → Bool) (c : Char) (hp : p c = true) :
    ∀ (k : Nat) (l : List Char),
      (List.replicate k c ++ l).dropWhile p = l.dropWhile p := by
  intro k
  induction k with
  | zero => intro l; rfl
  | succ k ih => intro l; simp [List.replicate_succ, List.dropWhile_cons, hp, ih]

theorem natDigits_zero : natDigits 0 = ['0'] := rfl

theorem natDigits_dropWhile {n : Nat} (hn : 1 ≤ n) :
    (natDigits n).dropWhile (fun c => c == '0') = natDigits n := by
  have hne := natDigitsCore_ne_nil (n + 1) n (by omega)
  have hhd := natDigitsCore_head_ne_zero (n + 1) n hn (by omega)
  unfold natDigits
  rcases he : natDigitsCore (n + 1) n with _ | ⟨x, t⟩
  · exact absurd he hne
  · rw [he] at hhd
    have hx : ¬ (x == '0') = true := by
      simp only [List.head?] at hhd
      simp only [beq_iff_eq]
      intro hc
      exact hhd (by rw [hc])
    simp [List.dropWhile_cons, hx]

theorem padName_digits_inj {m n : Nat}
    (h : padName (natDigits m) = padName (natDigits n)) : m = n := by
  have hdw := congrArg (List.dropWhile (fun c => c == '0')) h
  unfold padName at hdw
  rw [dropWhile_replicate_append _ '0' (by decide),
    dropWhile_replicate_append _ '0' (by decide)] at hdw
  rcases Nat.eq_zero_or_pos m with hm | hm <;> rcases Nat.eq_zero_or_pos n with hn | hn
  · omega
  · subst hm
    rw [natDigits_zero, natDigits_dropWhile hn] at hdw
    have hne : natDigits n ≠ [] := natDigitsCore_ne_nil (n + 1) n (by omega)
    simp only [List.dropWhile] at hdw
    simp at hdw
    exact (hne hdw).elim
  · subst hn
    rw [natDigits_zero, natDigits_dropWhile hm] at hdw
    have hne : natDigits m ≠ [] := natDigitsCore_ne_nil (m + 1) m (by omega)
    simp only [List.dropWhile] at hdw
    simp at hdw
    exact (hne hdw).elim
  · rw [natDigits_dropWhile hm, natDigits_dropWhile hn] at hdw
    exact natDigits_inj hdw

theorem ipsetNameOf_inj {m n : Nat} (h : ipsetNameOf m = ipsetNameOf n) : m = n := by
  unfold ipsetNameOf at h
  have h2 := congrArg String.data h
  simp only [List.cons.injEq, true_and] at h2
  exact padName_digits_inj h2


theorem splitColon : ∀ (a b x y : List Char), ':' ∉ a → ':' ∉ b →
    a ++ ':' :: x = b ++ ':' :: y → a = b ∧ x = y := by
  intro a
  induction a with
  | nil =>
    intro b x y _ hb h
    cases b with
    | nil => simpa using h
    | cons c t =>
      simp only [List.nil_append, List.cons_append, List.cons.injEq] at h
      have hm : ':' ∈ c :: t := by rw [h.1]; exact List.mem_cons_self c t
      exact (hb hm).elim
  | cons c t ih =>
    intro b x y ha hb h
    cases b with
    | nil =>
      simp only [List.cons_append, List.nil_append, List.cons.injEq] at h
      have hm : ':' ∈ c :: t := by rw [← h.1]; exact List.mem_cons_self c t
      exact (ha hm).elim
    | cons c2 t2 =>
      simp only [List.cons_append, List.cons.injEq] at h
      obtain ⟨hc, hrest⟩ := h
      have hih := ih t2 x y (fun hm => ha (List.mem_cons_of_mem c hm))
        (fun hm => hb (List.mem_cons_of_mem c2 hm)) hrest
      exact ⟨by rw [hc, hih.1], hih.2⟩

theorem string_append_data (s t : String) : (s ++ t).data = s.data ++ t.data := rfl

theorem dirStr_noColon (d : PDirection) : ':' ∉ (natRepr (dirInt d)).data := by
  cases d <;> decide

theorem actionStr_noColon (a : PAction) : ':' ∉ (actionEnumStr a).data := by
  cases a <;> decide

theorem protoStr_noColon (p : PProtocol) : ':' ∉ (protoEnumStr p).data := by
  cases p <;> decide

theorem dirStr_inj {d d' : PDirection}
    (h : (natRepr (dirInt d)).data = (natRepr (dirInt d')).data) : d = d' := by
  revert h
  cases d <;> cases d' <;> decide

theorem actionStr_inj {a a' : PAction}
    (h : (actionEnumStr a).data = (actionEnumStr a').data) : a = a' := by
  revert h
  cases a <;> cases a' <;> decide

theorem protoStr_inj {p p' : PProtocol}
    (h : (protoEnumStr p).data = (protoEnumStr p').data) : p = p' := by
  revert h
  cases p <;> cases p' <;> decide

/-- The grouping selector string determines, and is determined by, the
tuple (direction, action, protocol, port). -/
theorem selector_eq_iff (r r2 : FirewallRule) :
    getRuleGroupingSelector r = getRuleGroupingSelector r2 ↔
      (r.Direction = r2.Direction ∧ r.Action = r2.Action ∧
        r.Protocol = r2.Protocol ∧ r.Port = r2.Port) := by
  constructor
  · intro h
    unfold getRuleGroupingSelector at h
    have hd := congrArg String.data h
    simp only [string_append_data, (show (":" : String).data = [':'] from rfl),
      List.append_assoc, List.singleton_append] at hd
    obtain ⟨e1, hrest⟩ := splitColon _ _ _ _ (dirStr_noColon r.Direction)
      (dirStr_noColon r2.Direction) hd
    obtain ⟨e2, hrest2⟩ := splitColon _ _ _ _ (actionStr_noColon r.Action)
      (actionStr_noColon r2.Action) hrest
    obtain ⟨e3, e4⟩ := splitColon _ _ _ _ (protoStr_noColon r.Protocol)
      (protoStr_noColon r2.Protocol) hrest2
    refine ⟨dirStr_inj e1, actionStr_inj e2, protoStr_inj e3, ?_⟩
    rcases hp1 : r.Port with ⟨pd1⟩
    rcases hp2 : r2.Port with ⟨pd2⟩
    rw [hp1, hp2] at e4
    exact congrArg String.mk e4
  · intro h
    obtain ⟨h1, h2, h3, h4⟩ := h
    unfold getRuleGroupingSelector
    rw [h1, h2, h3, h4]


theorem alookup_none_not_key [DecidableEq κ] {m : List (κ × α)} {k : κ}
    (h : alookup m k = none) : k ∉ m.map Prod.fst := by
  induction m with
  | nil => simp
  | cons kv rest ih =>
    by_cases h2 : kv.1 = k
    · simp [alookup, h2] at h
    · simp only [alookup, h2, if_false] at h
      simp only [List.map_cons, List.mem_cons]
      rintro (hc | hc)
      · exact h2 hc.symm
      · exact ih h hc

theorem ainsert_append_of_none [DecidableEq κ] {m : List (κ × α)} {k : κ} (v : α)
    (h : alookup m k = none) : ainsert m k v = m ++ [(k, v)] := by
  induction m with
  | nil => rfl
  | cons kv rest ih =>
    by_cases h2 : kv.1 = k
    · simp [alookup, h2] at h
    · simp only [alookup, h2, if_false] at h
      simp [ainsert, h2, ih h]

def mintGrow (st : LoopSt) (sel : String) : LoopSt :=
  { st with ipsetCounter := st.ipsetCounter + 1,
            selMap := st.selMap ++ [(sel, ipsetNameOf (st.ipsetCounter + 1))] }

theorem mintName_cases (st : LoopSt) (r : FirewallRule) :
    ((alookup st.selMap (getRuleGroupingSelector r)).isSome ∧ (mintName st r).1 = st) ∨
    (alookup st.selMap (getRuleGroupingSelector r) = none ∧
      (mintName st r).1 = mintGrow st (getRuleGroupingSelector r)) := by
  unfold mintName mintGrow
  dsimp only
  rcases hl : alookup st.selMap (getRuleGroupingSelector r) with _ | name
  · right
    refine ⟨rfl, ?_⟩
    rw [ainsert_append_of_none _ hl]
  · left
    exact ⟨by simp, rfl⟩

theorem installLoop_selMap (be : Backend) (len : Nat) :
    ∀ (rules : List FirewallRule) (st : LoopSt) (base : Nat),
      st.ipsetCounter = base + st.selMap.length →
      st.selMap.map Prod.snd =
        (List.range' (base + 1) st.selMap.length).map ipsetNameOf →
      (st.selMap.map Prod.fst).Nodup →
      ((installLoop be len st rules).ipsetCounter =
          base + (installLoop be len st rules).selMap.length ∧
       (installLoop be len st rules).selMap.map Prod.snd =
         (List.range' (base + 1) (installLoop be len st rules).selMap.length).map
           ipsetNameOf ∧
       ((installLoop be len st rules).selMap.map Prod.fst).Nodup ∧
       st.selMap.length ≤ (installLoop be len st rules).selMap.length) := by
  intro rules
  induction rules with
  | nil =>
    intro st base h1 h2 h3
    exact ⟨h1, h2, h3, Nat.le_refl _⟩
  | cons r rest ih =>
    intro st base h1 h2 h3
    rcases hm : mintName st r with ⟨st2, ipsetName⟩
    have hinv : st2.ipsetCounter = base + st2.selMap.length ∧
        st2.selMap.map Prod.snd =
          (List.range' (base + 1) st2.selMap.length).map ipsetNameOf ∧
        (st2.selMap.map Prod.fst).Nodup ∧
        st.selMap.length ≤ st2.selMap.length := by
      rcases mintName_cases st r with ⟨_, hst⟩ | ⟨hnone, hst⟩
      · rw [hm] at hst
        simp only at hst
        rw [hst]
        exact ⟨h1, h2, h3, Nat.le_refl _⟩
      · rw [hm] at hst
        simp only at hst
        rw [hst]
        unfold mintGrow
        refine ⟨by simp [h1]; omega, ?_, ?_, by simp⟩
        · show (st.selMap ++ [(getRuleGroupingSelector r,
              ipsetNameOf (st.ipsetCounter + 1))]).map Prod.snd =
            (List.range' (base + 1)
              (st.selMap ++ [(getRuleGroupingSelector r,
                ipsetNameOf (st.ipsetCounter + 1))]).length).map ipsetNameOf
          rw [List.map_append, List.length_append]
          simp only [List.map_cons, List.map_nil, List.length_cons, List.length_nil]
          rw [List.range'_1_concat, List.map_append, ← h2, h1]
          have harith : base + 1 + st.selMap.length = base + st.selMap.length + 1 := by
            omega
          rw [harith]
          simp
        · show ((st.selMap ++ [(getRuleGroupingSelector r,
              ipsetNameOf (st.ipsetCounter + 1))]).map Prod.fst).Nodup
          rw [List.map_append, List.nodup_append]
          simp only [List.map_cons, List.map_nil]
          refine ⟨h3, List.nodup_singleton _, ?_⟩
          intro x hx
          simp only [List.mem_singleton]
          intro he
          exact alookup_none_not_key hnone (he ▸ hx)
    unfold installLoop
    rw [hm]
    dsimp only
    rcases hp : protoRuleToFirewallRule be st2.w st2.rulesPairs st2.tr r ipsetName
      with ⟨res, w2, tr2⟩
    cases res with
    | error e =>
      exact ⟨hinv.1, hinv.2.1, hinv.2.2.1, hinv.2.2.2⟩
    | ok pair =>
      rcases pair with ⟨pairID, rulePair⟩
      dsimp only
      by_cases hl : len > 0 <;> simp only [hl, if_true, if_false]
      · have := ih { st2 with rulesPairs := ainsert st2.rulesPairs pairID rulePair,
                               newRulePairs := ainsert st2.newRulePairs pairID rulePair,
                               w := w2, tr := tr2 } base hinv.1 hinv.2.1 hinv.2.2.1
        exact ⟨this.1, this.2.1, this.2.2.1, Nat.le_trans hinv.2.2.2 this.2.2.2⟩
      · have := ih { st2 with w := w2, tr := tr2 } base hinv.1 hinv.2.1 hinv.2.2.1
        exact ⟨this.1, this.2.1, this.2.2.1, Nat.le_trans hinv.2.2.2 this.2.2.2⟩


theorem apply_selMap_facts (be : Backend) (w : Nat) (st : ManagerState) (nm : NetworkMap) :
    (ApplyFiltering (some be) w st nm).1.ipsetCounter =
        st.ipsetCounter + (ApplyFiltering (some be) w st nm).2.2.2.length ∧
    (ApplyFiltering (some be) w st nm).2.2.2.map Prod.snd =
      (List.range' (st.ipsetCounter + 1)
        (ApplyFiltering (some be) w st nm).2.2.2.length).map ipsetNameOf ∧
    ((ApplyFiltering (some be) w st nm).2.2.2.map Prod.fst).Nodup := by
  rw [ApplyFiltering_some_eq]
  have h := installLoop_selMap be (effectiveRules nm).length (effectiveRules nm)
    ⟨st.rulesPairs, [], st.ipsetCounter, [], w, []⟩ st.ipsetCounter
    (by simp) (by simp) (by simp)
  exact ⟨h.1, h.2.1, h.2.2.1⟩

theorem entries_share_iff : ∀ (l : List (String × String)),
    (l.map Prod.fst).Nodup → (l.map Prod.snd).Nodup →
    ∀ s1 n1 s2 n2, (s1, n1) ∈ l → (s2, n2) ∈ l → (n1 = n2 ↔ s1 = s2) := by
  intro l
  induction l with
  | nil => intro _ _ s1 n1 s2 n2 h1; cases h1
  | cons kv t ih =>
    intro hk hv s1 n1 s2 n2 h1 h2
    rcases kv with ⟨a, b⟩
    simp only [List.map_cons, List.nodup_cons] at hk hv
    rcases List.mem_cons.mp h1 with h1 | h1 <;> rcases List.mem_cons.mp h2 with h2 | h2
    · rw [Prod.mk.injEq] at h1 h2
      simp [h1.1, h1.2, h2.1, h2.2]
    · rw [Prod.mk.injEq] at h1
      have hm2s : n2 ∈ List.map Prod.snd t := List.mem_map.mpr ⟨(s2, n2), h2, rfl⟩
      have hm2f : s2 ∈ List.map Prod.fst t := List.mem_map.mpr ⟨(s2, n2), h2, rfl⟩
      constructor
      · intro he
        exact (hv.1 (by rw [← h1.2, he]; exact hm2s)).elim
      · intro he
        exact (hk.1 (by rw [← h1.1, he]; exact hm2f)).elim
    · rw [Prod.mk.injEq] at h2
      have hm1s : n1 ∈ List.map Prod.snd t := List.mem_map.mpr ⟨(s1, n1), h1, rfl⟩
      have hm1f : s1 ∈ List.map Prod.fst t := List.mem_map.mpr ⟨(s1, n1), h1, rfl⟩
      constructor
      · intro he
        exact (hv.1 (by rw [← h2.2, ← he]; exact hm1s)).elim
      · intro he
        exact (hk.1 (by rw [← h2.1, ← he]; exact hm1f)).elim
    · exact ih hk.2 hv.2 s1 n1 s2 n2 h1 h2

theorem runSeq_facts (be : Backend) :
    ∀ (nms : List NetworkMap) (w : Nat) (st : ManagerState) (names : List String),
      names.Nodup →
      (∀ name ∈ names, ∃ k, 1 ≤ k ∧ k ≤ st.ipsetCounter ∧ name = ipsetNameOf k) →
      (st.ipsetCounter ≤ (runSeq be nms w st names).1.ipsetCounter ∧
       (runSeq be nms w st names).2.2.Nodup ∧
       (∀ name ∈ (runSeq be nms w st names).2.2,
          ∃ k, 1 ≤ k ∧ k ≤ (runSeq be nms w st names).1.ipsetCounter ∧
            name = ipsetNameOf k)) := by
  intro nms
  induction nms with
  | nil =>
    intro w st names h1 h2
    exact ⟨Nat.le_refl _, h1, h2⟩
  | cons nm rest ih =>
    intro w st names h1 h2
    have hsel := apply_selMap_facts be w st nm
    rcases happ : ApplyFiltering (some be) w st nm with ⟨st2, w2, tr2, selMap2⟩
    rw [happ] at hsel
    simp only at hsel
    have hrun : runSeq be (nm :: rest) w st names =
        runSeq be rest w2 st2 (names ++ selMap2.map Prod.snd) := by
      conv_lhs => unfold runSeq
      rw [happ]
    rw [hrun]
    have hNodupNew : (selMap2.map Prod.snd).Nodup := by
      rw [hsel.2.1]
      exact (List.nodup_range' _ _ 1 (by omega)).map
        (fun a b h => ipsetNameOf_inj h)
    have hbound : ∀ name ∈ selMap2.map Prod.snd,
        ∃ k, st.ipsetCounter + 1 ≤ k ∧ k ≤ st2.ipsetCounter ∧ name = ipsetNameOf k := by
      intro name hname
      rw [hsel.2.1] at hname
      obtain ⟨k, hk, hkeq⟩ := List.mem_map.mp hname
      have := List.mem_range'_1.mp hk
      exact ⟨k, this.1, by rw [hsel.1]; omega, hkeq.symm⟩
    have hN : (names ++ selMap2.map Prod.snd).Nodup := by
      rw [List.nodup_append]
      refine ⟨h1, hNodupNew, ?_⟩
      intro x hx hxin
      obtain ⟨k1, _, hk1c, he1⟩ := h2 x hx
      obtain ⟨k2, hk2c, _, he2⟩ := hbound x hxin
      rw [he1] at he2
      have := ipsetNameOf_inj he2
      omega
    have hB : ∀ name ∈ names ++ selMap2.map Prod.snd,
        ∃ k, 1 ≤ k ∧ k ≤ st2.ipsetCounter ∧ name = ipsetNameOf k := by
      intro name hname
      rcases List.mem_append.mp hname with hname | hname
      · obtain ⟨k, hk1, hk2, he⟩ := h2 name hname
        exact ⟨k, hk1, by rw [hsel.1]; omega, he⟩
      · obtain ⟨k, hk1, hk2, he⟩ := hbound name hname
        exact ⟨k, by omega, hk2, he⟩
    have hrest := ih w2 st2 (names ++ selMap2.map Prod.snd) hN hB
    refine ⟨?_, hrest.2.1, hrest.2.2⟩
    calc st.ipsetCounter ≤ st2.ipsetCounter := by rw [hsel.1]; omega
      _ ≤ (runSeq be rest w2 st2 (names ++ selMap2.map Prod.snd)).1.ipsetCounter :=
          hrest.1


/-- C8: (i) one `ApplyFiltering` call raises `ipsetCounter` by exactly the
number of distinct grouping selectors observed (the entries of the
per-call selector map), so the counter never decreases; (ii) the names
minted in the call are `nb%07d` of the counter values `c+1 .. c+n`, in
order; (iii) `ipsetNameOf` is the `nb`-prefixed seven-zero-padded decimal
of the counter and is injective; (iv) within one call, two selector-map
entries share an IP-set name exactly when their selectors are equal, and
selector strings are equal exactly when the (direction, action, protocol,
port) tuples are; (v) across any sequence of calls on one reconciler the
counter is monotone and no IP-set name is ever minted twice. -/
theorem ipset_counter_and_names :
    (∀ (be : Backend) (w : Nat) (st : ManagerState) (nm : NetworkMap),
      (ApplyFiltering (some be) w st nm).1.ipsetCounter =
          st.ipsetCounter + (ApplyFiltering (some be) w st nm).2.2.2.length ∧
      st.ipsetCounter ≤ (ApplyFiltering (some be) w st nm).1.ipsetCounter ∧
      (ApplyFiltering (some be) w st nm).2.2.2.map Prod.snd =
        (List.range' (st.ipsetCounter + 1)
          (ApplyFiltering (some be) w st nm).2.2.2.length).map ipsetNameOf) ∧
    ((∀ n, ipsetNameOf n = String.mk ('n' :: 'b' :: padName (natDigits n))) ∧
      (∀ m n, ipsetNameOf m = ipsetNameOf n → m = n)) ∧
    (∀ (be : Backend) (w : Nat) (st : ManagerState) (nm : NetworkMap)
        (s1 n1 s2 n2 : String),
      (s1, n1) ∈ (ApplyFiltering (some be) w st nm).2.2.2 →
      (s2, n2) ∈ (ApplyFiltering (some be) w st nm).2.2.2 →
      (n1 = n2 ↔ s1 = s2)) ∧
    (∀ r r2 : FirewallRule,
      getRuleGroupingSelector r = getRuleGroupingSelector r2 ↔
        (r.Direction = r2.Direction ∧ r.Action = r2.Action ∧
          r.Protocol = r2.Protocol ∧ r.Port = r2.Port)) ∧
    (∀ (be : Backend) (nms : List NetworkMap) (w : Nat) (st : ManagerState),
      st.ipsetCounter ≤ (runSeq be nms w st []).1.ipsetCounter ∧
      (runSeq be nms w st []).2.2.Nodup) := by
  refine ⟨fun be w st nm => ?_, ⟨fun n => rfl, fun m n h => ipsetNameOf_inj h⟩,
    fun be w st nm s1 n1 s2 n2 h1 h2 => ?_, selector_eq_iff, fun be nms w st => ?_⟩
  · have h := apply_selMap_facts be w st nm
    exact ⟨h.1, by omega, h.2.1⟩
  · have h := apply_selMap_facts be w st nm
    have hv : ((ApplyFiltering (some be) w st nm).2.2.2.map Prod.snd).Nodup := by
      rw [h.2.1]
      exact (List.nodup_range' _ _ 1 (by omega)).map (fun a b hab => ipsetNameOf_inj hab)
    exact entries_share_iff _ h.2.2 hv s1 n1 s2 n2 h1 h2
  · have h := runSeq_facts be nms w st [] (by simp) (by simp)
    exact ⟨h.1, h.2.1⟩

/-- Witness for C8: two `ApplyFiltering` calls of a two-selector map mint
the four distinct names nb0000001 .. nb0000004; the sequence facts applied
at this input evaluate accordingly. -/
theorem ipset_counter_and_names_witness :
    (runSeq okBackend [nmBC, nmDropThenAccepts] 0 initialManager []).2.2.Nodup ∧
    (runSeq okBackend [nmBC, nmDropThenAccepts] 0 initialManager []).2.2.length = 3 ∧
    initialManager.ipsetCounter ≤
      (runSeq okBackend [nmBC, nmDropThenAccepts] 0 initialManager []).1.ipsetCounter := by
  have h := ipset_counter_and_names.2.2.2.2 okBackend [nmBC, nmDropThenAccepts] 0
    initialManager
  exact ⟨h.2, by decide, h.1⟩

end Acl
